import Mathlib

/-! Verification development for the 8-puzzle solver (`AI2.cpp`).

Shallow embedding of `manhattan`, `is_solvable`, `State`, `BoardCompare` and
`solve`, followed by theorems about them.

Modelling conventions.
* `Board` is `vector<vector<int>>`: a list of rows of `Int`.
* C++ `int` values are `Int`; every quantity computed here is bounded by a
  small constant, so no wrap-around can occur.
* `State*` pointers are indices into an arena `nodes` holding every `State`
  created by `new`, in allocation order.  The frontier is
  `priority_queue<State*, vector<State*>, greater<State*>>`, which orders the
  *pointers themselves*; the address given to the `k`-th allocated node is
  `addr k`, a parameter of `solve`.
* The `while` loop of `solve` is iterated by `fuel`; `none` means the fuel ran
  out, `some path` is the value returned by `solve`.
-/

namespace Puzzle8

/-- A board: `vector<vector<int>>`. -/
abbrev Board := List (List Int)

/-- The loop range `0, 1, 2` used by every `for` loop over rows or columns. -/
def idx3 : List Int := [0, 1, 2]

/-- The read `b[i][j]`. -/
def cell (b : Board) (i j : Int) : Int := (b.getD i.toNat []).getD j.toNat 0

/-- The write `b[i][j] = v`. -/
def setCell (b : Board) (i j : Int) (v : Int) : Board :=
  b.set i.toNat ((b.getD i.toNat []).set j.toNat v)

/-- The call `swap(b[r1][c1], b[r2][c2])`. -/
def swapCells (b : Board) (r1 c1 r2 c2 : Int) : Board :=
  setCell (setCell b r1 c1 (cell b r2 c2)) r2 c2 (cell b r1 c1)

/-- A valid board: three rows of three cells holding every value `0..8` exactly once. -/
def valid (b : Board) : Prop :=
  b.map List.length = [3, 3, 3] ∧ List.Perm b.flatten [0, 1, 2, 3, 4, 5, 6, 7, 8]

instance (b : Board) : Decidable (valid b) := by
  unfold valid; infer_instance

/-! ## `manhattan` -/

/-- The innermost loop of `manhattan` over `gj` (the remaining columns `gjs`) in row `gi` of
`goal`: the amount added to `distance`, the loop stopping at the first match (`break`). -/
def scanRow (goal : Board) (tile i j gi : Int) : List Int → Int
  | [] => 0
  | gj :: gjs =>
    if cell goal gi gj = tile then (Int.natAbs (i - gi) : Int) + (Int.natAbs (j - gj) : Int)
    else scanRow goal tile i j gi gjs

/-- The loop of `manhattan` over `gi`: the `break` leaves only the `gj` loop, so every row of
`goal` is scanned. -/
def tileDistance (goal : Board) (tile i j : Int) : Int :=
  (idx3.map fun gi => scanRow goal tile i j gi idx3).sum

/-- The function `manhattan(current, goal)`. -/
def manhattan (current goal : Board) : Int :=
  (idx3.map fun i =>
    (idx3.map fun j =>
      if cell current i j = 0 then 0 else tileDistance goal (cell current i j) i j).sum).sum

/-! ## `is_solvable` -/

/-- The vector `tiles` built by `is_solvable`: the non-zero cells in row-major order. -/
def tilesOf (board : Board) : List Int :=
  idx3.flatMap fun i => idx3.flatMap fun j => if cell board i j ≠ 0 then [cell board i j] else []

/-- The counter `inv` of `is_solvable`: the number of pairs `i < j` with `tiles[i] > tiles[j]`. -/
def countInv : List Int → Int
  | [] => 0
  | x :: rest => ((rest.filter fun y => decide (x > y)).length : Int) + countInv rest

/-- The function `is_solvable(board)`. -/
def is_solvable (board : Board) : Bool := countInv (tilesOf board) % 2 == 0

/-! ## `State` -/

/-- The struct `State`; `parent` is an index into the arena of allocated nodes. -/
structure State where
  board : Board
  moves : Int
  heuristic : Int
  total : Int
  blank_r : Int
  blank_c : Int
  parent : Option Nat
  move : String
  moved_tile : Int
deriving DecidableEq

/-- The blank search of the constructor: the first `(i, j)` in row-major order with
`board[i][j] == 0`.  When there is none the C++ fields stay uninitialised; the model gives
`(0, 0)`, which is never used for a valid board. -/
def findBlank (board : Board) : Int × Int :=
  ((idx3.flatMap fun i => idx3.flatMap fun j => if cell board i j = 0 then [(i, j)] else []).head?).getD
    (0, 0)

/-- The constructor `State(b, m, h)`. -/
def State.new (b : Board) (m h : Int) : State :=
  { board := b, moves := m, heuristic := h, total := m + h,
    blank_r := (findBlank b).1, blank_c := (findBlank b).2,
    parent := none, move := "", moved_tile := -1 }

/-- The function `State::operator>`. -/
def State.gt (a other : State) : Bool := decide (a.total > other.total)

/-! ## `BoardCompare` and the `visited` set -/

/-- The function `BoardCompare::operator()`, scanning the cells `cs` in row-major order. -/
def boardLess (a b : Board) : List (Int × Int) → Bool
  | [] => false
  | (i, j) :: cs => if cell a i j ≠ cell b i j then decide (cell a i j < cell b i j)
                    else boardLess a b cs

/-- The nine cells in the order of the two nested loops. -/
def cells : List (Int × Int) := idx3.flatMap fun i => idx3.map fun j => (i, j)

/-- The functor `BoardCompare`. -/
def BoardCompare (a b : Board) : Bool := boardLess a b cells

/-- The call `visited.count(b)`: some element is equivalent to `b` under `BoardCompare`. -/
def visitedCount (visited : List Board) (b : Board) : Bool :=
  visited.any fun v => !BoardCompare v b && !BoardCompare b v

/-- The call `visited.insert(b)`. -/
def visitedInsert (visited : List Board) (b : Board) : List Board :=
  if visitedCount visited b then visited else visited ++ [b]

/-! ## `solve` -/

/-- The array `dr`. -/
def dr : List Int := [-1, 1, 0, 0]
/-- The array `dc`. -/
def dc : List Int := [0, 0, -1, 1]
/-- The array `dirs`. -/
def dirs : List String := ["UP", "DOWN", "LEFT", "RIGHT"]

/-- The search state of `solve`: the arena of allocated nodes, the frontier (pointers into
the arena) and the visited set. -/
structure Search where
  nodes : List State
  frontier : List Nat
  visited : List Board
deriving DecidableEq

/-- The value of `frontier.top()`: with `greater<State*>` the queue yields the pointer with
the smallest address. -/
def topOf (addr : Nat → Nat) : List Nat → Option Nat
  | [] => none
  | p :: ps =>
    match topOf addr ps with
    | none => some p
    | some q => if addr p ≤ addr q then some p else some q

/-- The dereference `*p` of a node pointer. -/
def deref (nodes : List State) (p : Nat) : State := nodes.getD p (State.new [] 0 0)

/-- Path reconstruction: the nodes from `p` back along `parent`, in the order they are
pushed; `n` bounds the number of links followed. -/
def chain (nodes : List State) : Nat → Nat → List State
  | 0, _ => []
  | n + 1, p =>
    deref nodes p ::
      (match (deref nodes p).parent with
       | none => []
       | some q => chain nodes n q)

/-- One pass of the body of `for (int i = 0; i < 4; i++)` for the node `current` (at
pointer `cur`). -/
def tryMove (goal : Board) (current : State) (cur : Nat) (s : Search) (i : Nat) : Search :=
  let nr := current.blank_r + dr.getD i 0
  let nc := current.blank_c + dc.getD i 0
  if 0 ≤ nr ∧ nr < 3 ∧ 0 ≤ nc ∧ nc < 3 then
    let tile := cell current.board nr nc
    let new_board := swapCells current.board current.blank_r current.blank_c nr nc
    if visitedCount s.visited new_board then s
    else
      let next : State :=
        { State.new new_board (current.moves + 1) (manhattan new_board goal) with
          parent := some cur, move := dirs.getD i "", moved_tile := tile }
      { s with nodes := s.nodes ++ [next], frontier := s.frontier ++ [s.nodes.length] }
  else s

/-- One iteration of the `while` loop: either the returned vector or the next search state. -/
def step (addr : Nat → Nat) (goal : Board) (s : Search) : List State ⊕ Search :=
  match topOf addr s.frontier with
  | none => Sum.inl []
  | some cur =>
    let current := deref s.nodes cur
    if current.board = goal then Sum.inl (chain s.nodes s.nodes.length cur).reverse
    else
      let s1 : Search :=
        { nodes := s.nodes, frontier := s.frontier.erase cur,
          visited := visitedInsert s.visited current.board }
      Sum.inr ([0, 1, 2, 3].foldl (tryMove goal current cur) s1)

/-- The `while` loop, run for at most `fuel` iterations. -/
def loop (addr : Nat → Nat) (goal : Board) : Nat → Search → Option (List State)
  | 0, _ => none
  | fuel + 1, s =>
    match step addr goal s with
    | Sum.inl path => some path
    | Sum.inr s1 => loop addr goal fuel s1

/-- The search state before the first iteration. -/
def initial (start goal : Board) : Search :=
  { nodes := [State.new start 0 (manhattan start goal)], frontier := [0], visited := [] }

/-- The function `solve(start, goal)`. -/
def solve (addr : Nat → Nat) (fuel : Nat) (start goal : Board) : Option (List State) :=
  loop addr goal fuel (initial start goal)

/-! ## Legal slides -/

/-- The board obtained from `b` by sliding the blank in direction `i` of `dr`/`dc`, when the
target cell is in bounds. -/
def slide (b : Board) (i : Nat) : Option Board :=
  let r := (findBlank b).1
  let c := (findBlank b).2
  let nr := r + dr.getD i 0
  let nc := c + dc.getD i 0
  if 0 ≤ nr ∧ nr < 3 ∧ 0 ≤ nc ∧ nc < 3 then some (swapCells b r c nr nc) else none

/-- One legal blank slide. -/
def Slide (a b : Board) : Prop := ∃ i, i < 4 ∧ slide a i = some b

/-- The relation `b` is obtained from `a` by exactly `k` legal slides. -/
def ReachIn : Nat → Board → Board → Prop
  | 0, a, b => a = b
  | k + 1, a, b => ∃ c, Slide a c ∧ ReachIn k c b

/-- The relation `b` is obtained from `a` by finitely many legal slides. -/
def Reach (a b : Board) : Prop := ∃ k, ReachIn k a b

/-! ## Reference notions used in the statements -/

/-- The position of tile `t` on `b`: the first cell in row-major order holding `t`. -/
def posOf (b : Board) (t : Int) : Int × Int :=
  ((idx3.flatMap fun i => idx3.flatMap fun j => if cell b i j = t then [(i, j)] else []).head?).getD
    (0, 0)

/-- The distance `|Δrow| + |Δcol|` of two cells. -/
def cellDist (p q : Int × Int) : Int :=
  (Int.natAbs (p.1 - q.1) : Int) + (Int.natAbs (p.2 - q.2) : Int)

/-- The contribution of tile `t` to `manhattan a g`. -/
def tileTerm (a g : Board) (t : Int) : Int :=
  if t = 0 then 0 else tileDistance g t (posOf a t).1 (posOf a t).2

/-- The reference value of the heuristic: the sum over the tiles `1..8` of the distance
between the tile's cells on the two boards. -/
def manhattanRef (a b : Board) : Int :=
  ([1, 2, 3, 4, 5, 6, 7, 8].map fun t => cellDist (posOf a t) (posOf b t)).sum

/-! ## Auxiliary definitions for the proofs -/

/-- Renaming of the tile labels of a board. -/
def relabel (f : Int → Int) (b : Board) : Board := b.map (List.map f)

/-- The board with the blank at cell `p` (row-major) and the tiles `1..8` in order. -/
def canon (p : Nat) : Board :=
  [[[0, 1, 2], [3, 4, 5], [6, 7, 8]], [[1, 0, 2], [3, 4, 5], [6, 7, 8]],
   [[1, 2, 0], [3, 4, 5], [6, 7, 8]], [[1, 2, 3], [0, 4, 5], [6, 7, 8]],
   [[1, 2, 3], [4, 0, 5], [6, 7, 8]], [[1, 2, 3], [4, 5, 0], [6, 7, 8]],
   [[1, 2, 3], [4, 5, 6], [0, 7, 8]], [[1, 2, 3], [4, 5, 6], [7, 0, 8]],
   [[1, 2, 3], [4, 5, 6], [7, 8, 0]]].getD p []

/-- The renaming that sends `k` to the `k`-th tile of `b` in row-major order. -/
def labelOf (b : Board) (t : Int) : Int :=
  if t = 0 then 0 else (tilesOf b).getD (t - 1).toNat 1

/-- The board reached by the slides in the directions `is`, when all are legal. -/
def slides (b : Board) : List Nat → Option Board
  | [] => some b
  | i :: is => (slide b i).bind fun c => slides c is

/-- Rotation of the three entries at positions `k`, `k + 1`, `k + 2` of a list. -/
def rotAt (k : Nat) (l : List Int) : List Int :=
  l.take k ++
    (match l.drop k with
     | x :: y :: z :: r => z :: x :: y :: r
     | r => r)

/-- The facts about one slide of a canonical board that a renaming carries over. -/
def slideCheck (p i : Nat) : Bool :=
  match slide (canon p) i with
  | none => true
  | some c =>
    decide (valid c) && decide (List.Perm (tilesOf c) (tilesOf (canon p))) &&
    (List.range 4).any (fun j => decide (slide c j = some (canon p))) &&
    (decide (tilesOf c = tilesOf (canon p)) ||
      (List.range 6).any fun k => decide (tilesOf c = rotAt k (tilesOf (canon p))) ||
        decide (tilesOf (canon p) = rotAt k (tilesOf c)))

/-- Exchange of the entries at positions `k1 < k2` of a list. -/
def swapAt (k1 k2 : Nat) (l : List Int) : List Int :=
  match l.drop k1 with
  | x :: rest =>
    (match rest.drop (k2 - k1 - 1) with
     | y :: r => l.take k1 ++ y :: (rest.take (k2 - k1 - 1) ++ x :: r)
     | [] => l)
  | [] => l

/-- The check, on the canonical board with the blank at `p`, that exchanging the tiles of two
different non-blank cells exchanges two entries of the tile sequence. -/
def swapCheck (p : Nat) (r1 c1 r2 c2 : Int) : Bool :=
  if cell (canon p) r1 c1 ≠ 0 ∧ cell (canon p) r2 c2 ≠ 0 ∧ (r1, c1) ≠ (r2, c2) then
    (List.range 8).any fun k1 => (List.range 8).any fun k2 =>
      decide (k1 < k2) &&
        decide (tilesOf (swapCells (canon p) r1 c1 r2 c2) = swapAt k1 k2 (tilesOf (canon p)))
  else true

/-- Two non-blank cells hold adjacent tiles: the cells are orthogonal neighbours, or the
tiles are consecutive in the row-major sequence of non-blank tiles. -/
def adjacentTiles (b : Board) (r1 c1 r2 c2 : Int) : Prop :=
  (Int.natAbs (r1 - r2) + Int.natAbs (c1 - c2) = 1) ∨
  (∃ k, (tilesOf b)[k]? = some (cell b r1 c1) ∧ (tilesOf b)[k + 1]? = some (cell b r2 c2)) ∨
  (∃ k, (tilesOf b)[k]? = some (cell b r2 c2) ∧ (tilesOf b)[k + 1]? = some (cell b r1 c1))

/-- The standard goal board. -/
def solved : Board := [[1, 2, 3], [4, 5, 6], [7, 8, 0]]

/-- The standard goal board with the tiles `7` and `8` exchanged. -/
def solvedSwapped : Board := [[1, 2, 3], [4, 5, 6], [8, 7, 0]]

/-- Slides that take the blank from cell `p` to the last cell. -/
def homeSeq (p : Nat) : List Nat := List.replicate (2 - p % 3) 3 ++ List.replicate (2 - p / 3) 1

/-- Slides, starting and ending with the blank in the last cell, that keep the cells before
cell `k - 1` and move the tile of cell `j` to cell `k - 1`; the sequence for stage `k` and cell
`j` is entry `j` of row `k - 1` of the table. -/
def stageTable : List (List (List Nat)) :=
  [
    [[],
     [0, 2, 2, 0, 3, 1, 1, 3],
     [0, 2, 0, 3, 1, 2, 2, 0, 3, 1, 1, 3],
     [0, 0, 2, 2, 1, 1, 3, 3],
     [0, 0, 2, 1, 2, 0, 3, 1, 1, 3],
     [2, 0, 3, 0, 2, 1, 2, 0, 3, 1, 1, 3],
     [0, 2, 2, 1, 3, 0, 0, 2, 1, 1, 3, 3],
     [0, 2, 1, 2, 0, 3, 0, 2, 1, 1, 3, 3]],
    [[],
     [],
     [0, 2, 0, 3, 1, 1],
     [0, 2, 2, 1, 3, 3, 0, 0, 2, 1, 1, 3],
     [0, 0, 2, 1, 1, 3],
     [2, 0, 3, 0, 2, 1, 1, 3],
     [2, 2, 0, 3, 1, 3, 0, 0, 2, 1, 1, 3],
     [0, 2, 1, 3, 0, 0, 2, 1, 1, 3]],
    [[],
     [],
     [],
     [0, 0, 2, 1, 2, 1, 3, 3, 0, 2, 0, 3, 1, 1],
     [0, 2, 2, 0, 3, 3, 1, 2, 0, 2, 1, 1, 3, 3],
     [0, 0, 2, 1, 3, 1, 2, 0, 0, 3, 1, 1],
     [0, 0, 2, 1, 1, 2, 0, 3, 1, 3, 0, 2, 0, 3, 1, 1],
     [0, 0, 2, 1, 1, 3, 0, 2, 0, 3, 1, 1]],
    [[],
     [],
     [],
     [],
     [2, 2, 0, 3, 1, 3],
     [2, 0, 3, 1, 2, 2, 0, 3, 1, 3],
     [0, 2, 2, 1, 3, 3],
     [0, 2, 1, 2, 0, 3, 1, 3]],
    [[],
     [],
     [],
     [],
     [],
     [2, 0, 3, 1],
     [0, 0, 2, 2, 1, 1, 3, 0, 2, 0, 3, 3, 1, 1],
     [0, 2, 1, 3]],
    [[],
     [],
     [],
     [],
     [],
     [],
     [2, 2, 0, 3, 1, 3, 0, 2, 2, 1, 3, 3],
     [2, 2, 0, 3, 3, 1, 2, 0, 2, 1, 3, 3]]
  ]

/-- The entry of `stageTable` for stage `k` and cell `j`. -/
def stageSeq (k j : Nat) : List Nat := (stageTable.getD (k - 1) []).getD j []

/-- The blank is in the last cell and the first `k` cells hold `1, ..., k`. -/
def solvedUpTo (k : Nat) (b : Board) : Prop :=
  cell b 2 2 = 0 ∧ ∀ m, m < k → b.flatten.getD m 0 = (m : Int) + 1

/-- The check that `homeSeq p` is legal on the canonical board and brings the blank home. -/
def homeCheck (p : Nat) : Bool :=
  match slides (canon p) (homeSeq p) with
  | none => false
  | some c => (homeSeq p).all (fun i => decide (i < 4)) && decide (valid c) &&
      decide (cell c 2 2 = 0)

/-- The check that `stageSeq k j` is legal on `solved` and does what `stageTable` promises. -/
def stageCheck (k j : Nat) : Bool :=
  match slides (canon 8) (stageSeq k j) with
  | none => false
  | some c => (stageSeq k j).all (fun i => decide (i < 4)) && decide (valid c) &&
      decide (cell c 2 2 = 0) &&
      (List.range (k - 1)).all (fun m => decide (c.flatten.getD m 0 = (m : Int) + 1)) &&
      decide (c.flatten.getD (k - 1) 0 = (j : Int) + 1)

/-- The description of one slide in terms of cells: `b'` is `b` with the blank at `(r, c)`
exchanged with the cell `(nr, nc)`, a neighbour in direction `i`, nothing else changing. -/
def SwapOf (b b' : Board) (i : Nat) : Prop :=
  let r := (findBlank b).1
  let c := (findBlank b).2
  let nr := r + dr.getD i 0
  let nc := c + dc.getD i 0
  (0 ≤ r ∧ r < 3 ∧ 0 ≤ c ∧ c < 3) ∧ (0 ≤ nr ∧ nr < 3 ∧ 0 ≤ nc ∧ nc < 3) ∧
  (Int.natAbs (nr - r) + Int.natAbs (nc - c) = 1) ∧
  cell b r c = 0 ∧ cell b' nr nc = 0 ∧ cell b' r c = cell b nr nc ∧
  ∀ x ∈ idx3, ∀ y ∈ idx3, (x, y) ≠ (r, c) → (x, y) ≠ (nr, nc) → cell b' x y = cell b x y

instance (b b' : Board) (i : Nat) : Decidable (SwapOf b b' i) := by
  unfold SwapOf; infer_instance

/-- The check of `SwapOf` for the slide of a canonical board in direction `i`. -/
def cellCheck (p i : Nat) : Bool :=
  match slide (canon p) i with
  | none => true
  | some c => decide (SwapOf (canon p) c i)

/-! ## The search: successor nodes, invariants and measures -/

/-- The node pushed by `solve` for the successor board `nb` in direction `i` of `current`. -/
def child (goal : Board) (current : State) (cur i : Nat) (nb : Board) : State :=
  { State.new nb (current.moves + 1) (manhattan nb goal) with
    parent := some cur, move := dirs.getD i "",
    moved_tile := cell current.board (current.blank_r + dr.getD i 0)
      (current.blank_c + dc.getD i 0) }

/-- The search state after pushing the nodes `news`. -/
def pushAll (s : Search) (news : List State) : Search :=
  { nodes := s.nodes ++ news,
    frontier := s.frontier ++ List.range' s.nodes.length news.length,
    visited := s.visited }

/-- The nodes pushed by one pass of the `for` loop over the directions. -/
def kids (goal : Board) (current : State) (cur : Nat) (visited : List Board) (i : Nat) :
    List State :=
  match slide current.board i with
  | none => []
  | some nb => if visitedCount visited nb then [] else [child goal current cur i nb]

/-- The nodes pushed by the whole `for` loop. -/
def allKids (goal : Board) (current : State) (cur : Nat) (visited : List Board) : List State :=
  kids goal current cur visited 0 ++ kids goal current cur visited 1 ++
    kids goal current cur visited 2 ++ kids goal current cur visited 3

/-- The search state after popping `cur` and marking its board visited. -/
def popped (s : Search) (cur : Nat) : Search :=
  { nodes := s.nodes, frontier := s.frontier.erase cur,
    visited := visitedInsert s.visited (deref s.nodes cur).board }

/-- A list holding every valid board. -/
def validBoards : List Board :=
  ([0, 1, 2, 3, 4, 5, 6, 7, 8] : List Int).permutations.map fun l =>
    [l.take 3, (l.drop 3).take 3, l.drop 6]

/-- The number of valid boards not yet visited. -/
def unvisited (s : Search) : Nat :=
  (validBoards.filter fun b => decide (b ∉ s.visited)).length

/-- The number of frontier nodes whose board is already visited. -/
def stale (s : Search) : Nat :=
  s.frontier.countP fun p => decide ((deref s.nodes p).board ∈ s.visited)

/-- The parent link of the search tree: `n` was pushed when `p` was expanded. -/
def Link (p n : State) : Prop :=
  ∃ i, i < 4 ∧ slide p.board i = some n.board ∧ n.move = dirs.getD i "" ∧
    n.moved_tile = cell p.board ((findBlank p.board).1 + dr.getD i 0)
      ((findBlank p.board).2 + dc.getD i 0) ∧
    n.moves = p.moves + 1

/-- The parent link read from child to parent. -/
def LinkRev (n p : State) : Prop := Link p n

/-- What `solve` promises about a returned vector `r`: the empty vector only when `goal` is
out of reach, and otherwise a sequence of linked nodes from `start` to `goal`. -/
def Post (start goal : Board) (r : List State) : Prop :=
  (r = [] → ¬ Reach start goal) ∧
  (r ≠ [] → r.head?.map State.board = some start ∧ r.getLast?.map State.board = some goal ∧
    List.Chain' Link r)

/-- The node at pointer `k` is well formed. -/
def NodeOK (start goal : Board) (nodes : List State) (k : Nat) : Prop :=
  valid (deref nodes k).board ∧
  ((deref nodes k).blank_r, (deref nodes k).blank_c) = findBlank (deref nodes k).board ∧
  match (deref nodes k).parent with
  | none => k = 0 ∧ deref nodes k = State.new start 0 (manhattan start goal)
  | some q => q < k ∧ Link (deref nodes q) (deref nodes k)

/-- The invariant of the `while` loop. -/
structure Inv (start goal : Board) (s : Search) : Prop where
  front_lt : ∀ p ∈ s.frontier, p < s.nodes.length
  node_ok : ∀ k, k < s.nodes.length → NodeOK start goal s.nodes k
  vis_ok : ∀ v ∈ s.visited, valid v ∧ v ≠ goal

/-- The visited set together with the frontier is closed under slides and holds `start`. -/
structure Closed (start : Board) (s : Search) : Prop where
  start_seen : start ∈ s.visited ∨ ∃ p ∈ s.frontier, (deref s.nodes p).board = start
  closed : ∀ v ∈ s.visited, ∀ w, Slide v w →
    w ∈ s.visited ∨ ∃ p ∈ s.frontier, (deref s.nodes p).board = w

/-- One legal slide matching its record: `n.board` is `p.board` with the blank at `(r, c)`
exchanged with the neighbour `(nr, nc)` lying in direction `n.move`, every other cell
unchanged, and `n.moved_tile` is the tile that went from `(nr, nc)` to `(r, c)`. -/
def LegalStep (p n : State) : Prop :=
  ∃ r c nr nc : Int,
    (0 ≤ r ∧ r < 3 ∧ 0 ≤ c ∧ c < 3) ∧ (0 ≤ nr ∧ nr < 3 ∧ 0 ≤ nc ∧ nc < 3) ∧
    cell p.board r c = 0 ∧
    ((n.move = "UP" ∧ nr = r - 1 ∧ nc = c) ∨ (n.move = "DOWN" ∧ nr = r + 1 ∧ nc = c) ∨
     (n.move = "LEFT" ∧ nr = r ∧ nc = c - 1) ∨ (n.move = "RIGHT" ∧ nr = r ∧ nc = c + 1)) ∧
    n.board.map List.length = [3, 3, 3] ∧
    cell n.board nr nc = 0 ∧ cell n.board r c = n.moved_tile ∧
    n.moved_tile = cell p.board nr nc ∧
    ∀ x ∈ idx3, ∀ y ∈ idx3, (x, y) ≠ (r, c) → (x, y) ≠ (nr, nc) →
      cell n.board x y = cell p.board x y

/-- Node addresses handed out downwards: every new node lies below the earlier ones. -/
def descending (k : Nat) : Nat := 1000000 - 112 * k

/-- The check that the blank of a canonical board is where `findBlank` says. -/
def blankCheck (p : Nat) : Bool :=
  idx3.all fun r => idx3.all fun c =>
    decide (cell (canon p) r c = 0 → (r, c) = findBlank (canon p))

/-! ## Further auxiliary definitions: heuristic and search traces -/

/-- The renaming `labelOf b` on the labels `0..8`, and the identity elsewhere. -/
def labelPerm (b : Board) (t : Int) : Int :=
  if 0 ≤ t ∧ t ≤ 8 then labelOf b t else t

/-- The check, for the slide of a canonical board in direction `i`, that exactly one tile
changes its cell, and moves to a neighbouring cell. -/
def moveCheck (p i : Nat) : Bool :=
  match slide (canon p) i with
  | none => true
  | some c =>
    [1, 2, 3, 4, 5, 6, 7, 8].any fun s0 : Int =>
      decide (Int.natAbs ((posOf c s0).1 - (posOf (canon p) s0).1) +
        Int.natAbs ((posOf c s0).2 - (posOf (canon p) s0).2) = 1) &&
      [1, 2, 3, 4, 5, 6, 7, 8].all fun s : Int =>
        decide (s ≠ s0 → posOf c s = posOf (canon p) s)

/-- The pointers pushed by path reconstruction from `p`, in the order they are pushed; `n`
bounds the number of links followed (compare `chain`, which lists the nodes pointed to). -/
def chainPtrs (nodes : List State) : Nat → Nat → List Nat
  | 0, _ => []
  | n + 1, p =>
    p ::
      (match (deref nodes p).parent with
       | none => []
       | some q => chainPtrs nodes n q)

/-- The search state at the start of iteration `k` of the `while` loop, when the loop has
not returned before. -/
def iter (addr : Nat → Nat) (goal : Board) : Nat → Search → Option Search
  | 0, s => some s
  | k + 1, s =>
    match step addr goal s with
    | Sum.inl _ => none
    | Sum.inr s1 => iter addr goal k s1

/-- The search state and the pointer `current` at the moment the loop returns a path. -/
def loopFound (addr : Nat → Nat) (goal : Board) : Nat → Search → Option (Search × Nat)
  | 0, _ => none
  | fuel + 1, s =>
    match step addr goal s with
    | Sum.inl _ => (topOf addr s.frontier).map fun cur => (s, cur)
    | Sum.inr s1 => loopFound addr goal fuel s1

/-- The arena and the pointer `current` with which `solve(start, goal)` returns a path. -/
def solveFound (addr : Nat → Nat) (fuel : Nat) (start goal : Board) : Option (Search × Nat) :=
  loopFound addr goal fuel (initial start goal)

/-- The vector of pointers `path` returned from the search state `s` with `current = cur`. -/
def returned (s : Search) (cur : Nat) : List Nat :=
  (chainPtrs s.nodes s.nodes.length cur).reverse

/-- The proper ancestors of the node at pointer `k`: what path reconstruction pushes after
the node itself. -/
def ancestors (nodes : List State) (k : Nat) : List State := (chain nodes (k + 1) k).tail

/-- Every proper ancestor of a node has a visited board, different from the node's board. -/
def AncOK (s : Search) : Prop :=
  ∀ k, k < s.nodes.length → ∀ x ∈ ancestors s.nodes k,
    x.board ∈ s.visited ∧ x.board ≠ (deref s.nodes k).board

/-- The parent pointer of the node at `a` is `b`. -/
def ParentIs (nodes : List State) (a b : Nat) : Prop := (deref nodes a).parent = some b

/-- Node addresses handed out upwards: every new node lies above the earlier ones. -/
def ascending (k : Nat) : Nat := 1000000 + 112 * k

/-- The check that at iteration `k` of the run from `start` to `goal` the node taken from
the frontier is not a goal node and has a board that is already in `visited`. -/
def expandsVisited (addr : Nat → Nat) (start goal : Board) (k : Nat) : Bool :=
  match iter addr goal k (initial start goal) with
  | none => false
  | some s =>
    match topOf addr s.frontier with
    | none => false
    | some cur =>
      decide ((deref s.nodes cur).board ≠ goal) && decide ((deref s.nodes cur).board ∈ s.visited)

/-! ## Valid boards and `manhattan` -/

theorem valid_shape {b : Board} (h : valid b) :
    ∃ a0 a1 a2 a3 a4 a5 a6 a7 a8 : Int, b = [[a0, a1, a2], [a3, a4, a5], [a6, a7, a8]] ∧
      List.Perm [a0, a1, a2, a3, a4, a5, a6, a7, a8] [0, 1, 2, 3, 4, 5, 6, 7, 8] := by
  obtain ⟨hl, hp⟩ := h
  match b, hl, hp with
  | [[a0, a1, a2], [a3, a4, a5], [a6, a7, a8]], _, hp =>
    exact ⟨a0, a1, a2, a3, a4, a5, a6, a7, a8, rfl, by simpa using hp⟩

theorem nodup_of_perm {l : List Int} (hp : List.Perm l [0, 1, 2, 3, 4, 5, 6, 7, 8]) : l.Nodup :=
  hp.nodup_iff.2 (by decide)

theorem findBlank_eq (b : Board) : findBlank b = posOf b 0 := rfl

/-- Pairwise distinctness of nine values, in both orientations, as one conjunction. -/
theorem distinct9 {a0 a1 a2 a3 a4 a5 a6 a7 a8 : Int}
    (hnd : [a0, a1, a2, a3, a4, a5, a6, a7, a8].Nodup) :
    ((a0 ≠ a1 ∧ a0 ≠ a2 ∧ a0 ≠ a3 ∧ a0 ≠ a4 ∧ a0 ≠ a5 ∧ a0 ≠ a6 ∧ a0 ≠ a7 ∧ a0 ≠ a8) ∧
     (a1 ≠ a2 ∧ a1 ≠ a3 ∧ a1 ≠ a4 ∧ a1 ≠ a5 ∧ a1 ≠ a6 ∧ a1 ≠ a7 ∧ a1 ≠ a8) ∧
     (a2 ≠ a3 ∧ a2 ≠ a4 ∧ a2 ≠ a5 ∧ a2 ≠ a6 ∧ a2 ≠ a7 ∧ a2 ≠ a8) ∧
     (a3 ≠ a4 ∧ a3 ≠ a5 ∧ a3 ≠ a6 ∧ a3 ≠ a7 ∧ a3 ≠ a8) ∧
     (a4 ≠ a5 ∧ a4 ≠ a6 ∧ a4 ≠ a7 ∧ a4 ≠ a8) ∧
     (a5 ≠ a6 ∧ a5 ≠ a7 ∧ a5 ≠ a8) ∧ (a6 ≠ a7 ∧ a6 ≠ a8) ∧ a7 ≠ a8) ∧
    ((a1 ≠ a0 ∧ a2 ≠ a0 ∧ a3 ≠ a0 ∧ a4 ≠ a0 ∧ a5 ≠ a0 ∧ a6 ≠ a0 ∧ a7 ≠ a0 ∧ a8 ≠ a0) ∧
     (a2 ≠ a1 ∧ a3 ≠ a1 ∧ a4 ≠ a1 ∧ a5 ≠ a1 ∧ a6 ≠ a1 ∧ a7 ≠ a1 ∧ a8 ≠ a1) ∧
     (a3 ≠ a2 ∧ a4 ≠ a2 ∧ a5 ≠ a2 ∧ a6 ≠ a2 ∧ a7 ≠ a2 ∧ a8 ≠ a2) ∧
     (a4 ≠ a3 ∧ a5 ≠ a3 ∧ a6 ≠ a3 ∧ a7 ≠ a3 ∧ a8 ≠ a3) ∧
     (a5 ≠ a4 ∧ a6 ≠ a4 ∧ a7 ≠ a4 ∧ a8 ≠ a4) ∧
     (a6 ≠ a5 ∧ a7 ≠ a5 ∧ a8 ≠ a5) ∧ (a7 ≠ a6 ∧ a8 ≠ a6) ∧ a8 ≠ a7) := by
  simp only [List.nodup_cons, List.mem_cons, List.mem_singleton, not_or, List.not_mem_nil,
    not_false_eq_true, List.nodup_nil, and_true] at hnd
  obtain ⟨⟨h01, h02, h03, h04, h05, h06, h07, h08⟩, ⟨h12, h13, h14, h15, h16, h17, h18⟩,
    ⟨h23, h24, h25, h26, h27, h28⟩, ⟨h34, h35, h36, h37, h38⟩, ⟨h45, h46, h47, h48⟩,
    ⟨h56, h57, h58⟩, ⟨h67, h68⟩, h78⟩ := hnd
  refine ⟨⟨⟨h01, h02, h03, h04, h05, h06, h07, h08⟩, ⟨h12, h13, h14, h15, h16, h17, h18⟩,
    ⟨h23, h24, h25, h26, h27, h28⟩, ⟨h34, h35, h36, h37, h38⟩, ⟨h45, h46, h47, h48⟩,
    ⟨h56, h57, h58⟩, ⟨h67, h68⟩, h78⟩,
    ⟨Ne.symm h01, Ne.symm h02, Ne.symm h03, Ne.symm h04, Ne.symm h05, Ne.symm h06, Ne.symm h07,
      Ne.symm h08⟩,
    ⟨Ne.symm h12, Ne.symm h13, Ne.symm h14, Ne.symm h15, Ne.symm h16, Ne.symm h17, Ne.symm h18⟩,
    ⟨Ne.symm h23, Ne.symm h24, Ne.symm h25, Ne.symm h26, Ne.symm h27, Ne.symm h28⟩,
    ⟨Ne.symm h34, Ne.symm h35, Ne.symm h36, Ne.symm h37, Ne.symm h38⟩,
    ⟨Ne.symm h45, Ne.symm h46, Ne.symm h47, Ne.symm h48⟩,
    ⟨Ne.symm h56, Ne.symm h57, Ne.symm h58⟩, ⟨Ne.symm h67, Ne.symm h68⟩, Ne.symm h78⟩

theorem tileDistance_eq {a0 a1 a2 a3 a4 a5 a6 a7 a8 : Int}
    (hnd : [a0, a1, a2, a3, a4, a5, a6, a7, a8].Nodup) (t : Int)
    (ht : t ∈ [a0, a1, a2, a3, a4, a5, a6, a7, a8]) (i j : Int) :
    tileDistance [[a0, a1, a2], [a3, a4, a5], [a6, a7, a8]] t i j =
      cellDist (i, j) (posOf [[a0, a1, a2], [a3, a4, a5], [a6, a7, a8]] t) := by
  have hd := distinct9 hnd
  simp only [List.mem_cons, List.mem_singleton, List.not_mem_nil, or_false] at ht
  rcases ht with h | h | h | h | h | h | h | h | h <;> subst t <;>
    simp [tileDistance, scanRow, posOf, idx3, cell, cellDist, hd]

theorem manhattan_eq_map {a0 a1 a2 a3 a4 a5 a6 a7 a8 : Int}
    (hnd : [a0, a1, a2, a3, a4, a5, a6, a7, a8].Nodup) (g : Board) :
    manhattan [[a0, a1, a2], [a3, a4, a5], [a6, a7, a8]] g =
      ([a0, a1, a2, a3, a4, a5, a6, a7, a8].map
        (tileTerm [[a0, a1, a2], [a3, a4, a5], [a6, a7, a8]] g)).sum := by
  have hd := distinct9 hnd
  simp [manhattan, tileTerm, posOf, idx3, cell, hd]
  ring

theorem posOf_range (b : Board) (t : Int) :
    0 ≤ (posOf b t).1 ∧ (posOf b t).1 ≤ 2 ∧ 0 ≤ (posOf b t).2 ∧ (posOf b t).2 ≤ 2 := by
  have hmem : ∀ p ∈ (idx3.flatMap fun i => idx3.flatMap fun j =>
      if cell b i j = t then [(i, j)] else []), p ∈ cells := by
    intro p hp
    simp only [List.mem_flatMap] at hp
    obtain ⟨i, hi, j, hj, hp⟩ := hp
    split_ifs at hp
    · simp only [List.mem_singleton] at hp
      subst hp
      simp only [cells, List.mem_flatMap, List.mem_map]
      exact ⟨i, hi, j, hj, rfl⟩
    · simp at hp
  unfold posOf
  rcases hl : (idx3.flatMap fun i => idx3.flatMap fun j =>
      if cell b i j = t then [(i, j)] else []) with _ | ⟨p, l⟩
  · simp
  · have hp := hmem p (by rw [hl]; exact List.mem_cons_self _ _)
    simp only [cells, idx3, List.flatMap_cons, List.flatMap_nil, List.map_cons, List.map_nil,
      List.append_nil, List.cons_append, List.nil_append, List.mem_cons, List.mem_singleton,
      List.not_mem_nil, or_false] at hp
    rcases hp with h | h | h | h | h | h | h | h | h <;> subst h <;> simp

theorem manhattan_eq_ref {a b : Board} (ha : valid a) (hb : valid b) :
    manhattan a b = manhattanRef a b := by
  obtain ⟨a0, a1, a2, a3, a4, a5, a6, a7, a8, rfl, hpa⟩ := valid_shape ha
  obtain ⟨b0, b1, b2, b3, b4, b5, b6, b7, b8, rfl, hpb⟩ := valid_shape hb
  rw [manhattan_eq_map (nodup_of_perm hpa), (hpa.map _).sum_eq]
  have key : ∀ t ∈ [0, 1, 2, 3, 4, 5, 6, 7, 8], ∀ p : Int × Int,
      tileDistance [[b0, b1, b2], [b3, b4, b5], [b6, b7, b8]] t p.1 p.2 =
        cellDist p (posOf [[b0, b1, b2], [b3, b4, b5], [b6, b7, b8]] t) := fun t ht p =>
    tileDistance_eq (nodup_of_perm hpb) t (hpb.mem_iff.2 ht) p.1 p.2
  simp [manhattanRef, tileTerm, key]

theorem cellDist_self (p : Int × Int) : cellDist p p = 0 := by simp [cellDist]

theorem cellDist_comm (p q : Int × Int) : cellDist p q = cellDist q p := by
  unfold cellDist; omega

theorem cellDist_posOf_le (a b : Board) (t : Int) :
    0 ≤ cellDist (posOf a t) (posOf b t) ∧ cellDist (posOf a t) (posOf b t) ≤ 4 := by
  have ha := posOf_range a t
  have hb := posOf_range b t
  unfold cellDist; omega

/-- C8: `manhattan(b, b) == 0` for every valid board `b`. -/
theorem manhattan_self (b : Board) (hb : valid b) : manhattan b b = 0 := by
  rw [manhattan_eq_ref hb hb]
  simp [manhattanRef, cellDist_self]

theorem manhattan_self_witness :
    valid [[1, 2, 3], [4, 0, 6], [7, 5, 8]] ∧
      manhattan [[1, 2, 3], [4, 0, 6], [7, 5, 8]] [[1, 2, 3], [4, 0, 6], [7, 5, 8]] = 0 :=
  ⟨by decide, manhattan_self _ (by decide)⟩

/-- C9: `manhattan` is symmetric on valid boards: `manhattan(a, b) == manhattan(b, a)`. -/
theorem manhattan_symm (a b : Board) (ha : valid a) (hb : valid b) :
    manhattan a b = manhattan b a := by
  rw [manhattan_eq_ref ha hb, manhattan_eq_ref hb ha]
  simp only [manhattanRef, List.map_cons, List.map_nil]
  simp only [cellDist_comm (posOf a _) (posOf b _)]

theorem manhattan_symm_witness :
    valid [[8, 1, 3], [4, 0, 2], [7, 6, 5]] ∧ valid [[1, 2, 3], [4, 5, 6], [7, 8, 0]] ∧
      manhattan [[8, 1, 3], [4, 0, 2], [7, 6, 5]] [[1, 2, 3], [4, 5, 6], [7, 8, 0]] =
        manhattan [[1, 2, 3], [4, 5, 6], [7, 8, 0]] [[8, 1, 3], [4, 0, 2], [7, 6, 5]] :=
  ⟨by decide, by decide, manhattan_symm _ _ (by decide) (by decide)⟩

/-- C10: for valid boards, `0 <= manhattan(current, goal) <= 32`. -/
theorem manhattan_bounds (current goal : Board) (hc : valid current) (hg : valid goal) :
    0 ≤ manhattan current goal ∧ manhattan current goal ≤ 32 := by
  rw [manhattan_eq_ref hc hg]
  have h1 := cellDist_posOf_le current goal 1
  have h2 := cellDist_posOf_le current goal 2
  have h3 := cellDist_posOf_le current goal 3
  have h4 := cellDist_posOf_le current goal 4
  have h5 := cellDist_posOf_le current goal 5
  have h6 := cellDist_posOf_le current goal 6
  have h7 := cellDist_posOf_le current goal 7
  have h8 := cellDist_posOf_le current goal 8
  simp only [manhattanRef, List.map_cons, List.map_nil, List.sum_cons, List.sum_nil]
  omega

theorem manhattan_bounds_witness :
    valid [[8, 7, 6], [5, 4, 3], [2, 1, 0]] ∧ valid [[1, 2, 3], [4, 5, 6], [7, 8, 0]] ∧
      0 ≤ manhattan [[8, 7, 6], [5, 4, 3], [2, 1, 0]] [[1, 2, 3], [4, 5, 6], [7, 8, 0]] ∧
      manhattan [[8, 7, 6], [5, 4, 3], [2, 1, 0]] [[1, 2, 3], [4, 5, 6], [7, 8, 0]] ≤ 32 :=
  ⟨by decide, by decide, manhattan_bounds _ _ (by decide) (by decide)⟩

/-! ## Inversion parity -/

theorem countInv_cons (x : Int) (l : List Int) :
    countInv (x :: l) = ((l.filter fun y => decide (x > y)).length : Int) + countInv l := rfl

/-- The number of elements of a list below `a` depends only on the elements. -/
theorem filter_length_perm {l l' : List Int} (h : List.Perm l l') (a : Int) :
    (l.filter fun y => decide (a > y)).length = (l'.filter fun y => decide (a > y)).length :=
  (h.filter _).length_eq

/-- Exchanging two neighbouring distinct entries changes the inversion count by one. -/
theorem countInv_swap_adj (l1 l2 : List Int) (x y : Int) (hxy : x ≠ y) :
    (countInv (l1 ++ y :: x :: l2) + 1) % 2 = countInv (l1 ++ x :: y :: l2) % 2 := by
  induction l1 with
  | nil =>
    simp only [List.nil_append, countInv_cons, List.filter_cons]
    by_cases h1 : x > y
    · have h2 : ¬ y > x := by omega
      simp only [h1, h2, decide_True, decide_False, if_true, if_false, List.length_cons]
      push_cast
      omega
    · have h2 : y > x := by omega
      simp only [h1, h2, decide_True, decide_False, if_true, if_false, List.length_cons]
      push_cast
      omega
  | cons a l ih =>
    simp only [List.cons_append, countInv_cons]
    have hp : List.Perm (l ++ y :: x :: l2) (l ++ x :: y :: l2) :=
      List.Perm.append_left l (List.Perm.swap x y l2)
    rw [filter_length_perm hp a]
    omega

/-- Exchanging any two distinct entries flips the parity of the inversion count, provided
the entries between them differ from both. -/
theorem countInv_swap (m : List Int) : ∀ (l1 l2 : List Int) (x y : Int), x ≠ y →
    (∀ z ∈ m, z ≠ x ∧ z ≠ y) →
    (countInv (l1 ++ y :: (m ++ x :: l2)) + 1) % 2 = countInv (l1 ++ x :: (m ++ y :: l2)) % 2 := by
  induction m with
  | nil => intro l1 l2 x y hxy _; simpa using countInv_swap_adj l1 l2 x y hxy
  | cons z m ih =>
    intro l1 l2 x y hxy hm
    have hz := hm z (List.mem_cons_self _ _)
    have hm' : ∀ w ∈ m, w ≠ x ∧ w ≠ y := fun w hw => hm w (List.mem_cons_of_mem _ hw)
    have e1 := countInv_swap_adj l1 (m ++ y :: l2) x z (Ne.symm hz.1)
    have e2 := ih (l1 ++ [z]) l2 x y hxy hm'
    have e3 := countInv_swap_adj l1 (m ++ x :: l2) z y hz.2
    simp only [List.append_assoc, List.singleton_append, List.cons_append, List.nil_append] at e1 e2 e3 ⊢
    omega

/-- Rotating three neighbouring, pairwise distinct entries keeps the parity. -/
theorem countInv_rot3 (l1 l2 : List Int) (x y z : Int) (hxz : x ≠ z) (hyz : y ≠ z) :
    countInv (l1 ++ z :: x :: y :: l2) % 2 = countInv (l1 ++ x :: y :: z :: l2) % 2 := by
  have e1 := countInv_swap_adj l1 (y :: l2) x z hxz
  have e2 := countInv_swap_adj (l1 ++ [x]) l2 y z hyz
  simp only [List.append_assoc, List.singleton_append, List.cons_append, List.nil_append] at e1 e2 ⊢
  omega

/-! ## Renaming of tiles and single slides -/

theorem getD_map_of_eq {α β : Type} (f : α → β) (l : List α) (n : Nat) (d : α) (d' : β)
    (h : f d = d') : (l.map f).getD n d' = f (l.getD n d) := by
  subst h; exact List.getD_map _ _ _

theorem cell_relabel (f : Int → Int) (hf : f 0 = 0) (b : Board) (i j : Int) :
    cell (relabel f b) i j = f (cell b i j) := by
  unfold cell relabel
  rw [getD_map_of_eq (List.map f) b i.toNat [] [] rfl, getD_map_of_eq f _ j.toNat 0 0 hf]

theorem setCell_relabel (f : Int → Int) (b : Board) (i j v : Int) :
    setCell (relabel f b) i j (f v) = relabel f (setCell b i j v) := by
  unfold setCell relabel
  rw [List.map_set, List.map_set, getD_map_of_eq (List.map f) b i.toNat [] [] rfl]

theorem swapCells_relabel (f : Int → Int) (hf : f 0 = 0) (b : Board) (r c nr nc : Int) :
    swapCells (relabel f b) r c nr nc = relabel f (swapCells b r c nr nc) := by
  unfold swapCells
  rw [cell_relabel f hf, cell_relabel f hf, setCell_relabel, setCell_relabel]

theorem findBlank_relabel (f : Int → Int) (hf : ∀ t, f t = 0 ↔ t = 0) (b : Board) :
    findBlank (relabel f b) = findBlank b := by
  unfold findBlank
  simp only [cell_relabel f ((hf 0).2 rfl), hf]

theorem slide_relabel (f : Int → Int) (hf : ∀ t, f t = 0 ↔ t = 0) (b : Board) (i : Nat) :
    slide (relabel f b) i = (slide b i).map (relabel f) := by
  unfold slide
  simp only [findBlank_relabel f hf, swapCells_relabel f ((hf 0).2 rfl)]
  split_ifs <;> rfl

theorem slides_relabel (f : Int → Int) (hf : ∀ t, f t = 0 ↔ t = 0) (is : List Nat) :
    ∀ b : Board, slides (relabel f b) is = (slides b is).map (relabel f) := by
  induction is with
  | nil => intro b; rfl
  | cons i is ih =>
    intro b
    simp only [slides, slide_relabel f hf]
    cases slide b i with
    | none => rfl
    | some c => simpa using ih c

theorem tilesOf_relabel (f : Int → Int) (hf : ∀ t, f t = 0 ↔ t = 0) (b : Board) :
    tilesOf (relabel f b) = (tilesOf b).map f := by
  unfold tilesOf
  simp only [cell_relabel f ((hf 0).2 rfl), List.map_flatMap, ne_eq, hf]
  congr 1; funext i; congr 1; funext j
  split_ifs <;> rfl

theorem labelOf_zero (b : Board) (t : Int) : labelOf b t = 0 ↔ t = 0 := by
  unfold labelOf
  constructor
  · intro h
    by_contra ht
    rw [if_neg ht] at h
    have hmem : ∀ x ∈ tilesOf b, x ≠ 0 := by
      intro x hx
      simp only [tilesOf, List.mem_flatMap] at hx
      obtain ⟨i, _, j, _, hx⟩ := hx
      split_ifs at hx with hc
      · simp only [List.mem_singleton] at hx; rw [hx]; exact hc
      · simp at hx
    rcases Nat.lt_or_ge (t - 1).toNat (tilesOf b).length with hlt | hge
    · rw [List.getD_eq_getElem _ _ hlt] at h
      exact hmem _ (List.getElem_mem _) h
    · rw [List.getD_eq_default _ _ hge] at h
      exact absurd h (by decide)
  · intro h; simp [h]

/-- Every valid board is a renaming of a canonical board, the renaming being injective on
the tiles. -/
theorem canon_form {b : Board} (hb : valid b) :
    ∃ p, p < 9 ∧ b = relabel (labelOf b) (canon p) ∧
      ([1, 2, 3, 4, 5, 6, 7, 8].map (labelOf b)).Nodup := by
  obtain ⟨a0, a1, a2, a3, a4, a5, a6, a7, a8, rfl, hp⟩ := valid_shape hb
  have hd := distinct9 (nodup_of_perm hp)
  have h0 : (0 : Int) ∈ [a0, a1, a2, a3, a4, a5, a6, a7, a8] := hp.mem_iff.2 (by decide)
  simp only [List.mem_cons, List.mem_singleton, List.not_mem_nil, or_false] at h0
  rcases h0 with h0 | h0 | h0 | h0 | h0 | h0 | h0 | h0 | h0 <;> subst h0
  · exact ⟨0, by decide, by simp [relabel, canon, labelOf, tilesOf, idx3, cell, hd],
      by simp [labelOf, tilesOf, idx3, cell, hd]⟩
  · exact ⟨1, by decide, by simp [relabel, canon, labelOf, tilesOf, idx3, cell, hd],
      by simp [labelOf, tilesOf, idx3, cell, hd]⟩
  · exact ⟨2, by decide, by simp [relabel, canon, labelOf, tilesOf, idx3, cell, hd],
      by simp [labelOf, tilesOf, idx3, cell, hd]⟩
  · exact ⟨3, by decide, by simp [relabel, canon, labelOf, tilesOf, idx3, cell, hd],
      by simp [labelOf, tilesOf, idx3, cell, hd]⟩
  · exact ⟨4, by decide, by simp [relabel, canon, labelOf, tilesOf, idx3, cell, hd],
      by simp [labelOf, tilesOf, idx3, cell, hd]⟩
  · exact ⟨5, by decide, by simp [relabel, canon, labelOf, tilesOf, idx3, cell, hd],
      by simp [labelOf, tilesOf, idx3, cell, hd]⟩
  · exact ⟨6, by decide, by simp [relabel, canon, labelOf, tilesOf, idx3, cell, hd],
      by simp [labelOf, tilesOf, idx3, cell, hd]⟩
  · exact ⟨7, by decide, by simp [relabel, canon, labelOf, tilesOf, idx3, cell, hd],
      by simp [labelOf, tilesOf, idx3, cell, hd]⟩
  · exact ⟨8, by decide, by simp [relabel, canon, labelOf, tilesOf, idx3, cell, hd],
      by simp [labelOf, tilesOf, idx3, cell, hd]⟩

theorem rotAt_map (f : Int → Int) (k : Nat) (l : List Int) :
    rotAt k (l.map f) = (rotAt k l).map f := by
  unfold rotAt
  rw [← List.map_take, ← List.map_drop]
  rcases l.drop k with _ | ⟨x, _ | ⟨y, _ | ⟨z, r⟩⟩⟩ <;> simp

theorem countInv_rotAt (k : Nat) (l : List Int) (hnd : l.Nodup) :
    countInv (rotAt k l) % 2 = countInv l % 2 := by
  have hl : l = l.take k ++ l.drop k := (List.take_append_drop k l).symm
  unfold rotAt
  rcases hd : l.drop k with _ | ⟨x, _ | ⟨y, _ | ⟨z, r⟩⟩⟩
  · simp only [← hd, ← hl]
  · simp only [← hd, ← hl]
  · simp only [← hd, ← hl]
  · rw [hd] at hl
    have hnd' : (x :: y :: z :: r).Nodup := by
      rw [hl] at hnd; exact (List.nodup_append.1 hnd).2.1
    simp only [List.nodup_cons, List.mem_cons, not_or] at hnd'
    have e := countInv_rot3 (l.take k) r x y z hnd'.1.2.1 hnd'.2.1.1
    simp only [e]
    rw [← hl]

theorem slideCheck_all : ∀ p, p < 9 → ∀ i, i < 4 → slideCheck p i = true := by decide

theorem valid_relabel {f : Int → Int} {c d : Board} (hc : valid c) (hd : valid d)
    (h : valid (relabel f d)) : valid (relabel f c) := by
  refine ⟨?_, ?_⟩
  · have := hc.1
    simpa [relabel, Function.comp_def] using this
  · have e1 : (relabel f c).flatten = c.flatten.map f := by simp [relabel, List.map_flatten]
    have e2 : (relabel f d).flatten = d.flatten.map f := by simp [relabel, List.map_flatten]
    rw [e1]
    refine List.Perm.trans ((hc.2.trans hd.2.symm).map f) ?_
    rw [← e2]; exact h.2

theorem slide_canon {b b' : Board} {i : Nat} (hb : valid b) (h : slide b i = some b') :
    ∃ p c f, p < 9 ∧ (∀ t, f t = 0 ↔ t = 0) ∧ ([1, 2, 3, 4, 5, 6, 7, 8].map f).Nodup ∧
      b = relabel f (canon p) ∧ slide (canon p) i = some c ∧ b' = relabel f c := by
  obtain ⟨p, hp, hbe, hnd⟩ := canon_form hb
  have hf := labelOf_zero b
  generalize labelOf b = f at hbe hnd hf
  subst hbe
  rw [slide_relabel f hf] at h
  rcases hc : slide (canon p) i with _ | c
  · rw [hc] at h; simp at h
  · rw [hc] at h
    simp only [Option.map_some', Option.some.injEq] at h
    exact ⟨p, c, f, hp, hf, hnd, rfl, hc, h.symm⟩

theorem tilesOf_canon : ∀ p, p < 9 → tilesOf (canon p) = [1, 2, 3, 4, 5, 6, 7, 8] := by decide

theorem valid_canon : ∀ p, p < 9 → valid (canon p) := by decide

/-- One legal slide of a valid board gives a valid board with the same inversion parity, and
can be undone by one slide. -/
theorem slide_facts {b b' : Board} {i : Nat} (hb : valid b) (hi : i < 4)
    (h : slide b i = some b') :
    valid b' ∧ countInv (tilesOf b') % 2 = countInv (tilesOf b) % 2 ∧
      ∃ j, j < 4 ∧ slide b' j = some b := by
  obtain ⟨p, c, f, hp, hf, hnd, rfl, hc, rfl⟩ := slide_canon hb h
  have hchk := slideCheck_all p hp i hi
  simp only [slideCheck, hc, Bool.and_eq_true, Bool.or_eq_true, decide_eq_true_eq,
    List.any_eq_true, List.mem_range] at hchk
  obtain ⟨⟨⟨hv, hperm⟩, j, hj, hback⟩, hrot⟩ := hchk
  refine ⟨valid_relabel hv (valid_canon p hp) hb, ?_, j, hj, ?_⟩
  · rw [tilesOf_relabel f hf, tilesOf_relabel f hf, tilesOf_canon p hp]
    rw [tilesOf_canon p hp] at hrot hperm
    rcases hrot with h1 | ⟨k, _, h1 | h1⟩
    · rw [h1]
    · rw [h1, ← rotAt_map, countInv_rotAt k _ hnd]
    · have hnd' : (List.map f (tilesOf c)).Nodup := (hperm.map f).nodup_iff.2 hnd
      rw [h1, ← rotAt_map, countInv_rotAt k _ hnd']
  · rw [slide_relabel f hf, hback]; rfl

theorem swapAt_map (f : Int → Int) (k1 k2 : Nat) (l : List Int) :
    swapAt k1 k2 (l.map f) = (swapAt k1 k2 l).map f := by
  unfold swapAt
  rw [← List.map_drop, ← List.map_take]
  rcases l.drop k1 with _ | ⟨x, rest⟩
  · rfl
  · simp only [List.map_cons]
    rw [← List.map_drop, ← List.map_take]
    rcases rest.drop (k2 - k1 - 1) with _ | ⟨y, r⟩ <;> simp

theorem countInv_swapAt (k1 k2 : Nat) (l : List Int) (hnd : l.Nodup) (h12 : k1 < k2)
    (h2l : k2 < l.length) : (countInv (swapAt k1 k2 l) + 1) % 2 = countInv l % 2 := by
  have hl : l = l.take k1 ++ l.drop k1 := (List.take_append_drop k1 l).symm
  unfold swapAt
  rcases hd : l.drop k1 with _ | ⟨x, rest⟩
  · have := congrArg List.length hd
    simp only [List.length_drop, List.length_nil] at this
    omega
  · have hrl : rest.length = l.length - k1 - 1 := by
      have := congrArg List.length hd
      simp only [List.length_drop, List.length_cons] at this
      omega
    have hr : rest = rest.take (k2 - k1 - 1) ++ rest.drop (k2 - k1 - 1) :=
      (List.take_append_drop _ rest).symm
    rcases hd2 : rest.drop (k2 - k1 - 1) with _ | ⟨y, r⟩
    · have := congrArg List.length hd2
      simp only [List.length_drop, List.length_nil] at this
      omega
    · simp only []
      rw [hd2]
      simp only []
      rw [hd2] at hr
      rw [hd, hr] at hl
      have hnd' := hnd
      rw [hl] at hnd'
      have h2 := (List.nodup_append.1 hnd').2.1
      simp only [List.nodup_cons, List.mem_append, List.mem_cons, not_or, List.nodup_append] at h2
      have e := countInv_swap (rest.take (k2 - k1 - 1)) (l.take k1) r x y h2.1.2.1
        (fun z hz => ⟨fun h => h2.1.1 (h ▸ hz), fun h =>
          h2.2.2.2 hz (h ▸ List.mem_cons_self _ _)⟩)
      rw [e, ← hl]

theorem swapCheck_all : ∀ p, p < 9 → ∀ r1 ∈ idx3, ∀ c1 ∈ idx3, ∀ r2 ∈ idx3, ∀ c2 ∈ idx3,
    swapCheck p r1 c1 r2 c2 = true := by decide

theorem mem_idx3 {r : Int} (h0 : 0 ≤ r) (h3 : r < 3) : r ∈ idx3 := by
  have : r = 0 ∨ r = 1 ∨ r = 2 := by omega
  rcases this with h | h | h <;> subst h <;> decide

/-- Exchanging the tiles of two different non-blank cells of a valid board flips the parity
of the inversion count. -/
theorem countInv_swapCells {b : Board} (hb : valid b) {r1 c1 r2 c2 : Int}
    (hr1 : 0 ≤ r1 ∧ r1 < 3) (hc1 : 0 ≤ c1 ∧ c1 < 3) (hr2 : 0 ≤ r2 ∧ r2 < 3)
    (hc2 : 0 ≤ c2 ∧ c2 < 3) (h1 : cell b r1 c1 ≠ 0) (h2 : cell b r2 c2 ≠ 0)
    (hne : (r1, c1) ≠ (r2, c2)) :
    (countInv (tilesOf (swapCells b r1 c1 r2 c2)) + 1) % 2 = countInv (tilesOf b) % 2 := by
  obtain ⟨p, hp, hbe, hnd⟩ := canon_form hb
  have hf := labelOf_zero b
  generalize labelOf b = f at hbe hnd hf
  subst hbe
  have hf0 : f 0 = 0 := (hf 0).2 rfl
  rw [cell_relabel f hf0, Ne, hf] at h1 h2
  have hchk := swapCheck_all p hp r1 (mem_idx3 hr1.1 hr1.2) c1 (mem_idx3 hc1.1 hc1.2)
    r2 (mem_idx3 hr2.1 hr2.2) c2 (mem_idx3 hc2.1 hc2.2)
  unfold swapCheck at hchk
  rw [if_pos ⟨h1, h2, hne⟩] at hchk
  simp only [List.any_eq_true, List.mem_range, Bool.and_eq_true, decide_eq_true_eq] at hchk
  obtain ⟨k1, _, k2, hk2, h12, he⟩ := hchk
  rw [swapCells_relabel f hf0, tilesOf_relabel f hf, tilesOf_relabel f hf, he, ← swapAt_map]
  rw [tilesOf_canon p hp]
  exact countInv_swapAt k1 k2 _ hnd h12 (by simpa using hk2)

/-! ## `is_solvable`: claims C5 and C6 -/

theorem tilesOf_nodup {b : Board} (hb : valid b) : (tilesOf b).Nodup := by
  obtain ⟨p, hp, hbe, hnd⟩ := canon_form hb
  have hf := labelOf_zero b
  generalize labelOf b = f at hbe hnd hf
  subst hbe
  rw [tilesOf_relabel f hf, tilesOf_canon p hp]
  exact hnd

/-- C5: `is_solvable` is invariant under a blank slide: for every valid board `b` and every
board `b'` obtained from `b` by one legal blank slide, `is_solvable(b') == is_solvable(b)`. -/
theorem is_solvable_slide (b b' : Board) (hb : valid b) (h : Slide b b') :
    is_solvable b' = is_solvable b := by
  obtain ⟨i, hi, hs⟩ := h
  unfold is_solvable
  rw [(slide_facts hb hi hs).2.1]

theorem is_solvable_slide_witness :
    valid [[1, 2, 3], [4, 0, 5], [6, 7, 8]] ∧
      Slide [[1, 2, 3], [4, 0, 5], [6, 7, 8]] [[1, 0, 3], [4, 2, 5], [6, 7, 8]] ∧
      is_solvable [[1, 0, 3], [4, 2, 5], [6, 7, 8]] = is_solvable [[1, 2, 3], [4, 0, 5], [6, 7, 8]] :=
  ⟨by decide, ⟨0, by decide, by decide⟩,
    is_solvable_slide _ _ (by decide) ⟨0, by decide, by decide⟩⟩

/-- C6: swapping two adjacent non-blank tiles flips `is_solvable`: for every valid board `b`
and two non-blank cells whose tiles are adjacent (orthogonal neighbours on the grid, or
consecutive in the row-major sequence of non-blank tiles), the board `b'` obtained by
exchanging the two tiles satisfies `is_solvable(b') == !is_solvable(b)`. -/
theorem is_solvable_swap_adjacent (b : Board) (hb : valid b) (r1 c1 r2 c2 : Int)
    (hr1 : 0 ≤ r1 ∧ r1 < 3) (hc1 : 0 ≤ c1 ∧ c1 < 3) (hr2 : 0 ≤ r2 ∧ r2 < 3)
    (hc2 : 0 ≤ c2 ∧ c2 < 3) (h1 : cell b r1 c1 ≠ 0) (h2 : cell b r2 c2 ≠ 0)
    (hadj : adjacentTiles b r1 c1 r2 c2) :
    is_solvable (swapCells b r1 c1 r2 c2) = !is_solvable b := by
  have hne : (r1, c1) ≠ (r2, c2) := by
    intro he
    simp only [Prod.mk.injEq] at he
    obtain ⟨rfl, rfl⟩ := he
    have hnd := tilesOf_nodup hb
    rcases hadj with h | ⟨k, hk1, hk2⟩ | ⟨k, hk1, hk2⟩
    · simp at h
    · have hlt : k + 1 < (tilesOf b).length := by
        rcases Nat.lt_or_ge (k + 1) (tilesOf b).length with h | h
        · exact h
        · rw [List.getElem?_eq_none h] at hk2; simp at hk2
      exact absurd (hk1.trans hk2.symm)
        (List.nodup_iff_getElem?_ne_getElem?.1 hnd k (k + 1) (Nat.lt_succ_self k) hlt)
    · have hlt : k + 1 < (tilesOf b).length := by
        rcases Nat.lt_or_ge (k + 1) (tilesOf b).length with h | h
        · exact h
        · rw [List.getElem?_eq_none h] at hk2; simp at hk2
      exact absurd (hk1.trans hk2.symm)
        (List.nodup_iff_getElem?_ne_getElem?.1 hnd k (k + 1) (Nat.lt_succ_self k) hlt)
  have e := countInv_swapCells hb hr1 hc1 hr2 hc2 h1 h2 hne
  unfold is_solvable
  rcases Int.emod_two_eq_zero_or_one (countInv (tilesOf b)) with h | h <;>
    rcases Int.emod_two_eq_zero_or_one (countInv (tilesOf (swapCells b r1 c1 r2 c2))) with h' | h'
      <;> simp [h, h'] <;> omega

theorem is_solvable_swap_adjacent_witness :
    valid [[1, 2, 3], [4, 5, 6], [7, 8, 0]] ∧
      adjacentTiles [[1, 2, 3], [4, 5, 6], [7, 8, 0]] 0 2 1 2 ∧
      is_solvable (swapCells [[1, 2, 3], [4, 5, 6], [7, 8, 0]] 0 2 1 2) =
        !is_solvable [[1, 2, 3], [4, 5, 6], [7, 8, 0]] :=
  ⟨by decide, Or.inl (by decide),
    is_solvable_swap_adjacent _ (by decide) 0 2 1 2 (by decide) (by decide) (by decide)
      (by decide) (by decide) (by decide) (Or.inl (by decide))⟩

/-! ## Reachability by legal slides -/

theorem slide_valid {a b : Board} (ha : valid a) (h : Slide a b) : valid b := by
  obtain ⟨i, hi, hs⟩ := h
  exact (slide_facts ha hi hs).1

theorem slide_symm {a b : Board} (ha : valid a) (h : Slide a b) : Slide b a := by
  obtain ⟨i, hi, hs⟩ := h
  exact (slide_facts ha hi hs).2.2

theorem slide_parity {a b : Board} (ha : valid a) (h : Slide a b) :
    is_solvable b = is_solvable a := by
  obtain ⟨i, hi, hs⟩ := h
  unfold is_solvable
  rw [(slide_facts ha hi hs).2.1]

theorem reachIn_valid {k : Nat} : ∀ {a b : Board}, valid a → ReachIn k a b → valid b := by
  induction k with
  | zero => intro a b ha h; exact h ▸ ha
  | succ k ih =>
    intro a b ha h
    obtain ⟨c, hc, hr⟩ := h
    exact ih (slide_valid ha hc) hr

theorem reachIn_parity {k : Nat} : ∀ {a b : Board}, valid a → ReachIn k a b →
    is_solvable b = is_solvable a := by
  induction k with
  | zero => intro a b _ h; exact h ▸ rfl
  | succ k ih =>
    intro a b ha h
    obtain ⟨c, hc, hr⟩ := h
    rw [ih (slide_valid ha hc) hr, slide_parity ha hc]

theorem reachIn_trans {m : Nat} : ∀ {n : Nat} {a b c : Board}, ReachIn m a b → ReachIn n b c →
    ReachIn (m + n) a c := by
  induction m with
  | zero => intro n a b c h1 h2; rw [Nat.zero_add]; exact h1 ▸ h2
  | succ m ih =>
    intro n a b c h1 h2
    obtain ⟨d, hd, hr⟩ := h1
    rw [Nat.succ_add]
    exact ⟨d, hd, ih hr h2⟩

theorem reachIn_single {a b : Board} (h : Slide a b) : ReachIn 1 a b := ⟨b, h, rfl⟩

theorem reachIn_symm {k : Nat} : ∀ {a b : Board}, valid a → ReachIn k a b → ReachIn k b a := by
  induction k with
  | zero => intro a b _ h; exact h ▸ rfl
  | succ k ih =>
    intro a b ha h
    obtain ⟨c, hc, hr⟩ := h
    exact reachIn_trans (ih (slide_valid ha hc) hr) (reachIn_single (slide_symm ha hc))

theorem reach_refl (a : Board) : Reach a a := ⟨0, rfl⟩

theorem reach_trans {a b c : Board} (h1 : Reach a b) (h2 : Reach b c) : Reach a c := by
  obtain ⟨m, h1⟩ := h1
  obtain ⟨n, h2⟩ := h2
  exact ⟨m + n, reachIn_trans h1 h2⟩

theorem reach_symm {a b : Board} (ha : valid a) (h : Reach a b) : Reach b a := by
  obtain ⟨k, h⟩ := h
  exact ⟨k, reachIn_symm ha h⟩

theorem reach_valid {a b : Board} (ha : valid a) (h : Reach a b) : valid b := by
  obtain ⟨k, h⟩ := h
  exact reachIn_valid ha h

theorem reach_parity {a b : Board} (ha : valid a) (h : Reach a b) :
    is_solvable b = is_solvable a := by
  obtain ⟨k, h⟩ := h
  exact reachIn_parity ha h

theorem slides_reach (is : List Nat) : ∀ {b c : Board}, (∀ i ∈ is, i < 4) →
    slides b is = some c → ReachIn is.length b c := by
  induction is with
  | nil => intro b c _ h; simpa [slides] using h
  | cons i is ih =>
    intro b c hlt h
    simp only [slides] at h
    rcases hs : slide b i with _ | d
    · rw [hs] at h; simp at h
    · rw [hs] at h
      exact ⟨d, ⟨i, hlt i (List.mem_cons_self _ _), hs⟩,
        ih (fun j hj => hlt j (List.mem_cons_of_mem _ hj)) (by simpa using h)⟩

/-! ## Connectivity of each parity class -/

theorem homeCheck_all : ∀ p, p < 9 → homeCheck p = true := by decide

theorem stageCheck_all : ∀ k, k < 7 → 0 < k → ∀ j, j < 8 → k - 1 ≤ j → stageCheck k j = true := by
  decide

theorem flatten_relabel (f : Int → Int) (b : Board) :
    (relabel f b).flatten = b.flatten.map f := by
  simp [relabel, List.map_flatten]

theorem flatGet_relabel (f : Int → Int) (hf : f 0 = 0) (b : Board) (m : Nat) :
    (relabel f b).flatten.getD m 0 = f (b.flatten.getD m 0) := by
  rw [flatten_relabel, getD_map_of_eq f _ m 0 0 hf]

/-- A valid board as a renaming of the canonical board with the same blank cell. -/
theorem canon_form_gen {b : Board} (hb : valid b) :
    ∃ p f, p < 9 ∧ (∀ t, f t = 0 ↔ t = 0) ∧ b = relabel f (canon p) := by
  obtain ⟨p, hp, hbe, _⟩ := canon_form hb
  exact ⟨p, labelOf b, hp, labelOf_zero b, hbe⟩

theorem reach_of_slides {f : Int → Int} (hf : ∀ t, f t = 0 ↔ t = 0) {c c0 : Board}
    {is : List Nat} (hlt : ∀ i ∈ is, i < 4) (hs : slides c is = some c0) :
    Reach (relabel f c) (relabel f c0) :=
  ⟨is.length, slides_reach is hlt (by rw [slides_relabel f hf, hs]; rfl)⟩

/-- From every valid board the blank can be brought to the last cell. -/
theorem reach_home {b : Board} (hb : valid b) :
    ∃ c, Reach b c ∧ valid c ∧ cell c 2 2 = 0 := by
  obtain ⟨p, f, hp, hf, rfl⟩ := canon_form_gen hb
  have hchk := homeCheck_all p hp
  unfold homeCheck at hchk
  rcases hs : slides (canon p) (homeSeq p) with _ | c0
  · rw [hs] at hchk; simp at hchk
  · rw [hs] at hchk
    simp only [Bool.and_eq_true, List.all_eq_true, decide_eq_true_eq] at hchk
    obtain ⟨⟨hlt, hv⟩, h22⟩ := hchk
    refine ⟨relabel f c0, reach_of_slides hf hlt hs, valid_relabel hv (valid_canon p hp) hb, ?_⟩
    rw [cell_relabel f ((hf 0).2 rfl), h22, (hf 0).2 rfl]

theorem canon_blank : ∀ p, p < 9 → cell (canon p) 2 2 = 0 → p = 8 := by decide

theorem canon8_flat : ∀ m, m < 8 → (canon 8).flatten.getD m 0 = (m : Int) + 1 := by decide

/-- One stage of the reduction: the next cell receives its tile. -/
theorem stage_step {b : Board} (hb : valid b) (k : Nat) (hk0 : 0 < k) (hk : k < 7)
    (hs : solvedUpTo (k - 1) b) : ∃ c, Reach b c ∧ valid c ∧ solvedUpTo k c := by
  obtain ⟨p, f, hp, hf, rfl⟩ := canon_form_gen hb
  have hf0 : f 0 = 0 := (hf 0).2 rfl
  obtain ⟨h22, hpre⟩ := hs
  rw [cell_relabel f hf0, hf] at h22
  obtain rfl := canon_blank p hp h22
  -- the cell `j` holding tile `k`
  have hmem : (k : Int) ∈ (relabel f (canon 8)).flatten :=
    hb.2.mem_iff.2 (by
      have : k = 1 ∨ k = 2 ∨ k = 3 ∨ k = 4 ∨ k = 5 ∨ k = 6 := by omega
      rcases this with h | h | h | h | h | h <;> subst h <;> decide)
  obtain ⟨j, hj, hjk⟩ := List.mem_iff_getElem.1 hmem
  have hlen : (relabel f (canon 8)).flatten.length = 9 := by
    rw [flatten_relabel, List.length_map]; rfl
  rw [hlen] at hj
  have hjk' : (relabel f (canon 8)).flatten.getD j 0 = k := by
    rw [List.getD_eq_getElem _ _ (by rw [hlen]; exact hj)]; exact hjk
  have hj8 : j ≠ 8 := by
    rintro rfl
    rw [flatGet_relabel f hf0] at hjk'
    have : (canon 8).flatten.getD 8 0 = 0 := by decide
    rw [this, hf0] at hjk'
    omega
  have hjge : k - 1 ≤ j := by
    by_contra hlt
    have := hpre j (by omega)
    rw [hjk'] at this
    omega
  have hchk := stageCheck_all k hk hk0 j (by omega) hjge
  unfold stageCheck at hchk
  rcases hsl : slides (canon 8) (stageSeq k j) with _ | c0
  · rw [hsl] at hchk; simp at hchk
  · rw [hsl] at hchk
    simp only [Bool.and_eq_true, List.all_eq_true, decide_eq_true_eq, List.mem_range] at hchk
    obtain ⟨⟨⟨⟨hlt, hv⟩, hc22⟩, hkeep⟩, hnew⟩ := hchk
    refine ⟨relabel f c0, reach_of_slides hf hlt hsl, valid_relabel hv (valid_canon 8 (by decide)) hb,
      ?_, ?_⟩
    · rw [cell_relabel f hf0, hc22, hf0]
    · intro m hm
      rw [flatGet_relabel f hf0]
      rcases Nat.lt_or_ge m (k - 1) with h1 | h1
      · have e1 : c0.flatten.getD m 0 = (canon 8).flatten.getD m 0 := by
          rw [hkeep m h1, canon8_flat m (by omega)]
        rw [e1, ← flatGet_relabel f hf0]
        exact hpre m h1
      · have hmk : m = k - 1 := by omega
        subst hmk
        have e1 : c0.flatten.getD (k - 1) 0 = (canon 8).flatten.getD j 0 := by
          rw [hnew, canon8_flat j (by omega)]
        rw [e1, ← flatGet_relabel f hf0, hjk']
        push_cast [Nat.cast_sub hk0]
        omega

theorem solvedUpTo_six {c : Board} (hc : valid c) (hs : solvedUpTo 6 c) :
    c = solved ∨ c = solvedSwapped := by
  obtain ⟨a0, a1, a2, a3, a4, a5, a6, a7, a8, rfl, hp⟩ := valid_shape hc
  obtain ⟨h22, hpre⟩ := hs
  have e0 := hpre 0 (by decide)
  have e1 := hpre 1 (by decide)
  have e2 := hpre 2 (by decide)
  have e3 := hpre 3 (by decide)
  have e4 := hpre 4 (by decide)
  have e5 := hpre 5 (by decide)
  simp [cell] at h22 e0 e1 e2 e3 e4 e5
  subst h22 e0 e1 e2 e3 e4 e5
  have h7 : (7 : Int) ∈ [1, 2, 3, 4, 5, 6, a6, a7, 0] := hp.mem_iff.2 (by decide)
  have h8 : (8 : Int) ∈ [1, 2, 3, 4, 5, 6, a6, a7, 0] := hp.mem_iff.2 (by decide)
  simp at h7 h8
  rcases h7 with h7 | h7 <;> rcases h8 with h8 | h8 <;> subst h7 <;>
    first
    | (subst h8; simp [solved, solvedSwapped])
    | omega

/-- Every valid board can be brought by legal slides to one of two boards. -/
theorem reach_canonical {b : Board} (hb : valid b) : Reach b solved ∨ Reach b solvedSwapped := by
  obtain ⟨c0, r0, v0, h0⟩ := reach_home hb
  have s0 : solvedUpTo 0 c0 := ⟨h0, fun m hm => absurd hm (Nat.not_lt_zero m)⟩
  obtain ⟨c1, r1, v1, s1⟩ := stage_step v0 1 (by decide) (by decide) s0
  obtain ⟨c2, r2, v2, s2⟩ := stage_step v1 2 (by decide) (by decide) s1
  obtain ⟨c3, r3, v3, s3⟩ := stage_step v2 3 (by decide) (by decide) s2
  obtain ⟨c4, r4, v4, s4⟩ := stage_step v3 4 (by decide) (by decide) s3
  obtain ⟨c5, r5, v5, s5⟩ := stage_step v4 5 (by decide) (by decide) s4
  obtain ⟨c6, r6, v6, s6⟩ := stage_step v5 6 (by decide) (by decide) s5
  have hr : Reach b c6 :=
    reach_trans r0 (reach_trans r1 (reach_trans r2 (reach_trans r3 (reach_trans r4
      (reach_trans r5 r6)))))
  rcases solvedUpTo_six v6 s6 with h | h
  · exact Or.inl (h ▸ hr)
  · exact Or.inr (h ▸ hr)

/-- Two valid boards with the same `is_solvable` value are connected by legal slides. -/
theorem reach_of_parity {a b : Board} (ha : valid a) (hb : valid b)
    (h : is_solvable a = is_solvable b) : Reach a b := by
  have p0 : is_solvable solved = true := by decide
  have p1 : is_solvable solvedSwapped = false := by decide
  rcases reach_canonical ha with ra | ra <;> rcases reach_canonical hb with rb | rb
  · exact reach_trans ra (reach_symm hb rb)
  · have h1 := reach_parity ha ra
    have h2 := reach_parity hb rb
    rw [p0] at h1; rw [p1] at h2
    rw [← h1, ← h2] at h
    exact absurd h (by decide)
  · have h1 := reach_parity ha ra
    have h2 := reach_parity hb rb
    rw [p1] at h1; rw [p0] at h2
    rw [← h1, ← h2] at h
    exact absurd h (by decide)
  · exact reach_trans ra (reach_symm hb rb)

/-! ## Slides described cell by cell -/

theorem cellCheck_all : ∀ p, p < 9 → ∀ i, i < 4 → cellCheck p i = true := by decide

theorem slide_swapOf {b b' : Board} {i : Nat} (hb : valid b) (hi : i < 4)
    (h : slide b i = some b') : SwapOf b b' i := by
  obtain ⟨p, c, f, hp, hf, -, rfl, hc, rfl⟩ := slide_canon hb h
  have hchk := cellCheck_all p hp i hi
  simp only [cellCheck, hc, decide_eq_true_eq] at hchk
  have hf0 : f 0 = 0 := (hf 0).2 rfl
  unfold SwapOf at hchk ⊢
  simp only [findBlank_relabel f hf, cell_relabel f hf0]
  obtain ⟨h1, h2, h3, h4, h5, h6, h7⟩ := hchk
  refine ⟨h1, h2, h3, ?_, ?_, ?_, ?_⟩
  · rw [h4, hf0]
  · rw [h5, hf0]
  · rw [h6]
  · intro x hx y hy hxy hxy'
    rw [h7 x hx y hy hxy hxy']

theorem blankCheck_all : ∀ p, p < 9 → blankCheck p = true := by decide

theorem findBlank_unique {a : Board} (ha : valid a) {r c : Int} (hr : 0 ≤ r ∧ r < 3)
    (hc : 0 ≤ c ∧ c < 3) (h : cell a r c = 0) : findBlank a = (r, c) := by
  obtain ⟨p, f, hp, hf, rfl⟩ := canon_form_gen ha
  rw [cell_relabel f ((hf 0).2 rfl), hf] at h
  rw [findBlank_relabel f hf]
  have hchk := blankCheck_all p hp
  simp only [blankCheck, List.all_eq_true, decide_eq_true_eq] at hchk
  exact (hchk r (mem_idx3 hr.1 hr.2) c (mem_idx3 hc.1 hc.2) h).symm

/-- A legal slide, as produced by the move generation of `solve`, is exactly the exchange of
the blank with an orthogonally adjacent cell of the grid. -/
theorem slide_iff_swap {a b : Board} (ha : valid a) :
    Slide a b ↔ ∃ r c nr nc : Int, (0 ≤ r ∧ r < 3) ∧ (0 ≤ c ∧ c < 3) ∧ (0 ≤ nr ∧ nr < 3) ∧
      (0 ≤ nc ∧ nc < 3) ∧ cell a r c = 0 ∧ Int.natAbs (nr - r) + Int.natAbs (nc - c) = 1 ∧
      b = swapCells a r c nr nc := by
  constructor
  · rintro ⟨i, hi, hs⟩
    obtain ⟨h1, h2, h3, h4, -⟩ := slide_swapOf ha hi hs
    refine ⟨_, _, _, _, ⟨h1.1, h1.2.1⟩, ⟨h1.2.2.1, h1.2.2.2⟩, ⟨h2.1, h2.2.1⟩, ⟨h2.2.2.1, h2.2.2.2⟩,
      h4, h3, ?_⟩
    unfold slide at hs
    simp only [h2, and_self, if_true, Option.some.injEq] at hs
    exact hs.symm
  · rintro ⟨r, c, nr, nc, hr, hc, hnr, hnc, h0, hadj, rfl⟩
    have hfb := findBlank_unique ha hr hc h0
    have hcase : (nr = r + -1 ∧ nc = c + 0) ∨ (nr = r + 1 ∧ nc = c + 0) ∨
        (nr = r + 0 ∧ nc = c + -1) ∨ (nr = r + 0 ∧ nc = c + 1) := by omega
    rcases hcase with ⟨e1, e2⟩ | ⟨e1, e2⟩ | ⟨e1, e2⟩ | ⟨e1, e2⟩
    · refine ⟨0, by decide, ?_⟩
      unfold slide
      simp only [hfb, dr, dc, List.getD_cons_zero, ← e1, ← e2, hnr, hnc, and_self, if_true]
    · refine ⟨1, by decide, ?_⟩
      unfold slide
      simp only [hfb, dr, dc, List.getD_cons_succ, List.getD_cons_zero, ← e1, ← e2, hnr, hnc,
        and_self, if_true]
    · refine ⟨2, by decide, ?_⟩
      unfold slide
      simp only [hfb, dr, dc, List.getD_cons_succ, List.getD_cons_zero, ← e1, ← e2, hnr, hnc,
        and_self, if_true]
    · refine ⟨3, by decide, ?_⟩
      unfold slide
      simp only [hfb, dr, dc, List.getD_cons_succ, List.getD_cons_zero, ← e1, ← e2, hnr, hnc,
        and_self, if_true]

/-! ## Claim C4 -/

/-- C4: the parity test characterises reachability: for all valid boards `a` and `b`, `b`
can be obtained from `a` by a finite sequence of legal blank slides if and only if
`is_solvable(a) == is_solvable(b)`. -/
theorem reach_iff_is_solvable (a b : Board) (ha : valid a) (hb : valid b) :
    Reach a b ↔ is_solvable a = is_solvable b :=
  ⟨fun h => (reach_parity ha h).symm, reach_of_parity ha hb⟩

theorem reach_iff_is_solvable_witness :
    valid [[8, 1, 3], [4, 0, 2], [7, 6, 5]] ∧ valid [[1, 2, 3], [4, 5, 6], [7, 8, 0]] ∧
      (Reach [[8, 1, 3], [4, 0, 2], [7, 6, 5]] [[1, 2, 3], [4, 5, 6], [7, 8, 0]] ↔
        is_solvable [[8, 1, 3], [4, 0, 2], [7, 6, 5]] =
          is_solvable [[1, 2, 3], [4, 5, 6], [7, 8, 0]]) :=
  ⟨by decide, by decide, reach_iff_is_solvable _ _ (by decide) (by decide)⟩

/-! ## The search loop -/

theorem boardLess_false (a b : Board) (cs : List (Int × Int)) :
    (boardLess a b cs = false ∧ boardLess b a cs = false) ↔
      ∀ ij ∈ cs, cell a ij.1 ij.2 = cell b ij.1 ij.2 := by
  induction cs with
  | nil => simp [boardLess]
  | cons ij cs ih =>
    obtain ⟨i, j⟩ := ij
    simp only [boardLess, List.mem_cons, forall_eq_or_imp]
    by_cases h : cell a i j = cell b i j
    · simp only [h, ne_eq, not_true_eq_false, if_false, true_and]
      exact ih
    · have h' : ¬ cell b i j = cell a i j := fun e => h e.symm
      simp only [h, h', ne_eq, not_false_eq_true, if_true, decide_eq_false_iff_not, false_and,
        iff_false, not_and]
      omega

theorem board_ext {a b : Board} (ha : valid a) (hb : valid b)
    (h : ∀ ij ∈ cells, cell a ij.1 ij.2 = cell b ij.1 ij.2) : a = b := by
  obtain ⟨a0, a1, a2, a3, a4, a5, a6, a7, a8, rfl, -⟩ := valid_shape ha
  obtain ⟨b0, b1, b2, b3, b4, b5, b6, b7, b8, rfl, -⟩ := valid_shape hb
  simp [cells, idx3, cell] at h
  simp [h]

theorem equiv_iff_eq {a b : Board} (ha : valid a) (hb : valid b) :
    (!BoardCompare a b && !BoardCompare b a) = true ↔ a = b := by
  constructor
  · intro h
    simp only [Bool.and_eq_true, Bool.not_eq_true'] at h
    exact board_ext ha hb ((boardLess_false a b cells).1 h)
  · rintro rfl
    have := (boardLess_false a a cells).2 (fun _ _ => rfl)
    simp [BoardCompare, this.1]

theorem visitedCount_iff {visited : List Board} {b : Board} (hv : ∀ v ∈ visited, valid v)
    (hb : valid b) : visitedCount visited b = true ↔ b ∈ visited := by
  unfold visitedCount
  rw [List.any_eq_true]
  constructor
  · rintro ⟨v, hvm, he⟩
    rw [equiv_iff_eq (hv v hvm) hb] at he
    exact he ▸ hvm
  · intro h
    exact ⟨b, h, (equiv_iff_eq hb hb).2 rfl⟩

theorem mem_visitedInsert {visited : List Board} {b : Board} (hv : ∀ v ∈ visited, valid v)
    (hb : valid b) (x : Board) : x ∈ visitedInsert visited b ↔ x ∈ visited ∨ x = b := by
  unfold visitedInsert
  split_ifs with h
  · rw [visitedCount_iff hv hb] at h
    constructor
    · exact Or.inl
    · rintro (h' | rfl)
      · exact h'
      · exact h
  · simp

theorem tryMove_eq (goal : Board) (current : State) (cur : Nat) (s : Search) (i : Nat)
    (h : (current.blank_r, current.blank_c) = findBlank current.board) :
    tryMove goal current cur s i =
      match slide current.board i with
      | none => s
      | some nb =>
        if visitedCount s.visited nb then s else pushAll s [child goal current cur i nb] := by
  have h1 : current.blank_r = (findBlank current.board).1 := by rw [← h]
  have h2 : current.blank_c = (findBlank current.board).2 := by rw [← h]
  unfold tryMove slide
  simp only [← h1, ← h2]
  split_ifs with hin hv
  · simp only [hv, if_true]
  · simp only [hv, Bool.false_eq_true, if_false, pushAll, child, List.length_singleton,
      List.range'_one]
  · rfl

theorem pushAll_nil (s : Search) : pushAll s [] = s := by
  simp [pushAll]

theorem pushAll_pushAll (s : Search) (l l' : List State) :
    pushAll (pushAll s l) l' = pushAll s (l ++ l') := by
  simp only [pushAll, List.append_assoc, List.length_append, Search.mk.injEq, true_and, and_true]
  rw [List.range'_append_1, Nat.add_comm]

theorem tryMove_kids (goal : Board) (current : State) (cur : Nat) (s : Search) (i : Nat)
    (h : (current.blank_r, current.blank_c) = findBlank current.board) :
    tryMove goal current cur s i = pushAll s (kids goal current cur s.visited i) := by
  rw [tryMove_eq goal current cur s i h]
  unfold kids
  rcases slide current.board i with _ | nb
  · simp [pushAll_nil]
  · simp only []
    split_ifs
    · simp [pushAll_nil]
    · rfl

theorem expand_eq (goal : Board) (current : State) (cur : Nat) (s : Search)
    (h : (current.blank_r, current.blank_c) = findBlank current.board) :
    [0, 1, 2, 3].foldl (tryMove goal current cur) s =
      pushAll s (allKids goal current cur s.visited) := by
  simp only [List.foldl_cons, List.foldl_nil]
  rw [tryMove_kids _ _ _ s 0 h, tryMove_kids _ _ _ _ 1 h, tryMove_kids _ _ _ _ 2 h,
    tryMove_kids _ _ _ _ 3 h]
  simp only [pushAll_pushAll, allKids]
  rfl

theorem step_eq (addr : Nat → Nat) (goal : Board) (s : Search) (cur : Nat)
    (ht : topOf addr s.frontier = some cur) (hg : (deref s.nodes cur).board ≠ goal)
    (h : ((deref s.nodes cur).blank_r, (deref s.nodes cur).blank_c) =
      findBlank (deref s.nodes cur).board) :
    step addr goal s = Sum.inr (pushAll (popped s cur)
      (allKids goal (deref s.nodes cur) cur (popped s cur).visited)) := by
  unfold step
  simp only [ht, hg, if_false]
  rw [expand_eq goal _ cur _ h]
  rfl

theorem topOf_mem (addr : Nat → Nat) : ∀ (l : List Nat) (p : Nat), topOf addr l = some p → p ∈ l := by
  intro l
  induction l with
  | nil => intro p h; simp [topOf] at h
  | cons a l ih =>
    intro p h
    simp only [topOf] at h
    rcases ht : topOf addr l with _ | q
    · rw [ht] at h; simp only [Option.some.injEq] at h; simp [h]
    · rw [ht] at h
      simp only at h
      split_ifs at h
      · simp only [Option.some.injEq] at h; simp [h]
      · simp only [Option.some.injEq] at h
        subst h
        exact List.mem_cons_of_mem _ (ih q ht)

theorem topOf_none (addr : Nat → Nat) (l : List Nat) (h : topOf addr l = none) : l = [] := by
  cases l with
  | nil => rfl
  | cons a l =>
    simp only [topOf] at h
    rcases ht : topOf addr l with _ | q
    · rw [ht] at h; simp at h
    · rw [ht] at h
      simp only at h
      split_ifs at h

theorem deref_append_left {nodes : List State} (l : List State) {k : Nat}
    (h : k < nodes.length) : deref (nodes ++ l) k = deref nodes k := by
  unfold deref
  rw [List.getD_eq_getElem _ _ (by rw [List.length_append]; omega), List.getD_eq_getElem _ _ h,
    List.getElem_append_left h]

theorem deref_append_right (nodes l : List State) {j : Nat} (h : j < l.length) :
    deref (nodes ++ l) (nodes.length + j) = l[j] := by
  unfold deref
  rw [List.getD_eq_getElem _ _ (by rw [List.length_append]; omega),
    List.getElem_append_right (by omega)]
  simp

theorem child_facts (goal : Board) (current : State) (cur i : Nat) (nb : Board)
    (hb : (current.blank_r, current.blank_c) = findBlank current.board) (hi : i < 4)
    (hs : slide current.board i = some nb) :
    (child goal current cur i nb).board = nb ∧ (child goal current cur i nb).parent = some cur ∧
    ((child goal current cur i nb).blank_r, (child goal current cur i nb).blank_c) =
      findBlank nb ∧
    Link current (child goal current cur i nb) := by
  have h1 : current.blank_r = (findBlank current.board).1 := by rw [← hb]
  have h2 : current.blank_c = (findBlank current.board).2 := by rw [← hb]
  refine ⟨rfl, rfl, rfl, i, hi, hs, rfl, ?_, rfl⟩
  simp only [child, h1, h2]

/-- What the nodes pushed for `current` look like. -/
theorem allKids_facts (goal : Board) {current : State} (cur : Nat) {visited : List Board}
    (hv : ∀ v ∈ visited, valid v) (hc : valid current.board)
    (hb : (current.blank_r, current.blank_c) = findBlank current.board) :
    (∀ x ∈ allKids goal current cur visited,
      valid x.board ∧ x.board ∉ visited ∧ x.parent = some cur ∧
      (x.blank_r, x.blank_c) = findBlank x.board ∧ Link current x) ∧
    (∀ w, Slide current.board w →
      w ∈ visited ∨ ∃ x ∈ allKids goal current cur visited, x.board = w) := by
  have hk : ∀ i, i < 4 → ∀ x ∈ kids goal current cur visited i,
      valid x.board ∧ x.board ∉ visited ∧ x.parent = some cur ∧
      (x.blank_r, x.blank_c) = findBlank x.board ∧ Link current x := by
    intro i hi x hx
    unfold kids at hx
    rcases hs : slide current.board i with _ | nb
    · rw [hs] at hx; simp at hx
    · rw [hs] at hx
      simp only at hx
      have hnb : valid nb := (slide_facts hc hi hs).1
      split_ifs at hx with hvc
      · simp at hx
      · simp only [List.mem_singleton] at hx
        subst hx
        obtain ⟨e1, e2, e3, e4⟩ := child_facts goal current cur i nb hb hi hs
        rw [visitedCount_iff hv hnb] at hvc
        exact ⟨e1 ▸ hnb, e1 ▸ hvc, e2, e1 ▸ e3, e4⟩
  have hw : ∀ i, i < 4 → ∀ w, slide current.board i = some w →
      w ∈ visited ∨ ∃ x ∈ kids goal current cur visited i, x.board = w := by
    intro i hi w hs
    have hnb : valid w := (slide_facts hc hi hs).1
    by_cases hvc : visitedCount visited w = true
    · exact Or.inl ((visitedCount_iff hv hnb).1 hvc)
    · refine Or.inr ⟨child goal current cur i w, ?_, rfl⟩
      unfold kids
      rw [hs]
      simp [hvc]
  constructor
  · intro x hx
    simp only [allKids, List.mem_append] at hx
    rcases hx with ((hx | hx) | hx) | hx
    · exact hk 0 (by decide) x hx
    · exact hk 1 (by decide) x hx
    · exact hk 2 (by decide) x hx
    · exact hk 3 (by decide) x hx
  · rintro w ⟨i, hi, hs⟩
    rcases hw i hi w hs with h | ⟨x, hx, hxw⟩
    · exact Or.inl h
    · refine Or.inr ⟨x, ?_, hxw⟩
      simp only [allKids, List.mem_append]
      have : i = 0 ∨ i = 1 ∨ i = 2 ∨ i = 3 := by omega
      rcases this with rfl | rfl | rfl | rfl
      · exact Or.inl (Or.inl (Or.inl hx))
      · exact Or.inl (Or.inl (Or.inr hx))
      · exact Or.inl (Or.inr hx)
      · exact Or.inr hx

theorem nodeOK_append {start goal : Board} {nodes : List State} (l : List State) {k : Nat}
    (hk : k < nodes.length) (h : NodeOK start goal nodes k) :
    NodeOK start goal (nodes ++ l) k := by
  unfold NodeOK at h ⊢
  rw [deref_append_left l hk]
  refine ⟨h.1, h.2.1, ?_⟩
  have h3 := h.2.2
  rcases hp : (deref nodes k).parent with _ | q
  · rw [hp] at h3; exact h3
  · rw [hp] at h3
    simp only at h3 ⊢
    rw [deref_append_left l (by omega)]
    exact h3

/-- The invariant survives one iteration of the loop. -/
theorem step_inv {addr : Nat → Nat} {start goal : Board} {s : Search} {cur : Nat}
    (hinv : Inv start goal s) (ht : topOf addr s.frontier = some cur)
    (hg : (deref s.nodes cur).board ≠ goal) :
    Inv start goal (pushAll (popped s cur)
      (allKids goal (deref s.nodes cur) cur (popped s cur).visited)) := by
  have hcur : cur < s.nodes.length := hinv.front_lt cur (topOf_mem addr _ _ ht)
  obtain ⟨hvb, hblank, -⟩ := hinv.node_ok cur hcur
  have hv : ∀ v ∈ s.visited, valid v := fun v h => (hinv.vis_ok v h).1
  have hv' : ∀ v ∈ (popped s cur).visited, valid v ∧ v ≠ goal := by
    intro v h
    rcases (mem_visitedInsert hv hvb v).1 h with h | rfl
    · exact hinv.vis_ok v h
    · exact ⟨hvb, hg⟩
  obtain ⟨hkids, -⟩ := allKids_facts goal cur (fun v h => (hv' v h).1)
    hvb hblank
  refine ⟨?_, ?_, hv'⟩
  · intro p hp
    simp only [pushAll, popped, List.mem_append, List.length_append] at hp ⊢
    rcases hp with hp | hp
    · have := hinv.front_lt p (List.mem_of_mem_erase hp)
      omega
    · have := (List.mem_range'_1.1 hp).2
      omega
  · intro k hk
    simp only [pushAll, popped, List.length_append] at hk ⊢
    rcases Nat.lt_or_ge k s.nodes.length with hlt | hge
    · exact nodeOK_append _ hlt (hinv.node_ok k hlt)
    · obtain ⟨j, rfl⟩ : ∃ j, k = s.nodes.length + j := ⟨k - s.nodes.length, by omega⟩
      have hj : j < (allKids goal (deref s.nodes cur) cur
          (visitedInsert s.visited (deref s.nodes cur).board)).length := by omega
      obtain ⟨h1, -, h3, h4, h5⟩ := hkids _ (List.getElem_mem hj)
      unfold NodeOK
      rw [deref_append_right _ _ hj]
      refine ⟨h1, h4, ?_⟩
      rw [h3]
      simp only
      rw [deref_append_left _ hcur]
      exact ⟨by omega, h5⟩

/-- The closure property survives one iteration of the loop. -/
theorem step_closed {addr : Nat → Nat} {start goal : Board} {s : Search} {cur : Nat}
    (hinv : Inv start goal s) (hcl : Closed start s) (ht : topOf addr s.frontier = some cur) :
    Closed start (pushAll (popped s cur)
      (allKids goal (deref s.nodes cur) cur (popped s cur).visited)) := by
  have hcur : cur < s.nodes.length := hinv.front_lt cur (topOf_mem addr _ _ ht)
  obtain ⟨hvb, hblank, -⟩ := hinv.node_ok cur hcur
  have hv : ∀ v ∈ s.visited, valid v := fun v h => (hinv.vis_ok v h).1
  have hv' : ∀ v ∈ (popped s cur).visited, valid v := by
    intro v h
    rcases (mem_visitedInsert hv hvb v).1 h with h | rfl
    · exact hv v h
    · exact hvb
  obtain ⟨-, hcov⟩ := allKids_facts goal cur hv' hvb hblank
  have hmono : ∀ w, w ∈ s.visited → w ∈ (popped s cur).visited := fun w h =>
    (mem_visitedInsert hv hvb w).2 (Or.inl h)
  have hB : (deref s.nodes cur).board ∈ (popped s cur).visited :=
    (mem_visitedInsert hv hvb _).2 (Or.inr rfl)
  have hold : ∀ w, (∃ p ∈ s.frontier, (deref s.nodes p).board = w) →
      w ∈ (popped s cur).visited ∨
      ∃ p ∈ (popped s cur).frontier ++ List.range' s.nodes.length
          (allKids goal (deref s.nodes cur) cur (popped s cur).visited).length,
        (deref (s.nodes ++ allKids goal (deref s.nodes cur) cur (popped s cur).visited) p).board
          = w := by
    rintro w ⟨p, hp, rfl⟩
    by_cases hpc : p = cur
    · exact Or.inl (hpc ▸ hB)
    · refine Or.inr ⟨p, List.mem_append_left _ ((List.mem_erase_of_ne hpc).2 hp), ?_⟩
      rw [deref_append_left _ (hinv.front_lt p hp)]
  have hnew : ∀ w, (∃ x ∈ allKids goal (deref s.nodes cur) cur (popped s cur).visited,
      x.board = w) →
      ∃ p ∈ (popped s cur).frontier ++ List.range' s.nodes.length
          (allKids goal (deref s.nodes cur) cur (popped s cur).visited).length,
        (deref (s.nodes ++ allKids goal (deref s.nodes cur) cur (popped s cur).visited) p).board
          = w := by
    rintro w ⟨x, hx, rfl⟩
    obtain ⟨j, hj, rfl⟩ := List.mem_iff_getElem.1 hx
    refine ⟨s.nodes.length + j, List.mem_append_right _ (List.mem_range'_1.2 ⟨by omega, by omega⟩),
      ?_⟩
    rw [deref_append_right _ _ hj]
  constructor
  · rcases hcl.start_seen with h | h
    · exact Or.inl (hmono _ h)
    · exact hold _ h
  · intro v hvm w hsl
    rcases (mem_visitedInsert hv hvb v).1 hvm with h | rfl
    · rcases hcl.closed v h w hsl with h' | h'
      · exact Or.inl (hmono _ h')
      · exact hold _ h'
    · rcases hcov w hsl with h' | h'
      · exact Or.inl h'
      · exact Or.inr (hnew _ h')

theorem mem_validBoards {b : Board} (hb : valid b) : b ∈ validBoards := by
  obtain ⟨a0, a1, a2, a3, a4, a5, a6, a7, a8, rfl, hp⟩ := valid_shape hb
  unfold validBoards
  rw [List.mem_map]
  exact ⟨[a0, a1, a2, a3, a4, a5, a6, a7, a8], List.mem_permutations.2 hp, rfl⟩

/-- Every iteration that does not return decreases `(unvisited, stale)` lexicographically. -/
theorem step_decrease {addr : Nat → Nat} {start : Board} (goal : Board) {s : Search} {cur : Nat}
    (hinv : Inv start goal s) (ht : topOf addr s.frontier = some cur) :
    unvisited (pushAll (popped s cur)
        (allKids goal (deref s.nodes cur) cur (popped s cur).visited)) < unvisited s ∨
    (unvisited (pushAll (popped s cur)
        (allKids goal (deref s.nodes cur) cur (popped s cur).visited)) = unvisited s ∧
     stale (pushAll (popped s cur)
        (allKids goal (deref s.nodes cur) cur (popped s cur).visited)) < stale s) := by
  have hmem := topOf_mem addr _ _ ht
  have hcur : cur < s.nodes.length := hinv.front_lt cur hmem
  obtain ⟨hvb, hblank, -⟩ := hinv.node_ok cur hcur
  have hv : ∀ v ∈ s.visited, valid v := fun v h => (hinv.vis_ok v h).1
  by_cases hB : (deref s.nodes cur).board ∈ s.visited
  · right
    have hvis : visitedInsert s.visited (deref s.nodes cur).board = s.visited := by
      simp only [visitedInsert, (visitedCount_iff hv hvb).2 hB, if_true]
    obtain ⟨hkids, -⟩ := allKids_facts goal cur hv hvb hblank
    simp only [unvisited, stale, pushAll, popped, hvis, List.countP_append, true_and]
    · show _ + _ < _
      have h2 : List.countP (fun p => decide ((deref (s.nodes ++
          allKids goal (deref s.nodes cur) cur s.visited) p).board ∈ s.visited))
          (List.range' s.nodes.length (allKids goal (deref s.nodes cur) cur s.visited).length)
          = 0 := by
        rw [List.countP_eq_zero]
        intro p hp
        obtain ⟨hp1, hp2⟩ := List.mem_range'_1.1 hp
        obtain ⟨j, rfl⟩ : ∃ j, p = s.nodes.length + j := ⟨p - s.nodes.length, by omega⟩
        have hj : j < (allKids goal (deref s.nodes cur) cur s.visited).length := by omega
        rw [deref_append_right _ _ hj]
        simpa using (hkids _ (List.getElem_mem hj)).2.1
      have h1 : List.countP (fun p => decide ((deref (s.nodes ++
          allKids goal (deref s.nodes cur) cur s.visited) p).board ∈ s.visited))
          (s.frontier.erase cur) =
          List.countP (fun p => decide ((deref s.nodes p).board ∈ s.visited))
            (s.frontier.erase cur) := by
        apply List.countP_congr
        intro p hp
        rw [deref_append_left _ (hinv.front_lt p (List.mem_of_mem_erase hp))]
      have h3 := (List.perm_cons_erase hmem).countP_eq
        (fun p => decide ((deref s.nodes p).board ∈ s.visited))
      rw [List.countP_cons_of_pos _ _ (by simpa using hB)] at h3
      rw [h1, h2, h3]
      omega
  · left
    have hvis : visitedInsert s.visited (deref s.nodes cur).board =
        s.visited ++ [(deref s.nodes cur).board] := by
      have : ¬ visitedCount s.visited (deref s.nodes cur).board = true := fun h =>
        hB ((visitedCount_iff hv hvb).1 h)
      simp [visitedInsert, this]
    simp only [unvisited, pushAll, popped, hvis]
    have e : (validBoards.filter fun b => decide (b ∉ s.visited ++ [(deref s.nodes cur).board]))
        = (validBoards.filter fun b => decide (b ∉ s.visited)).filter
            fun b => decide (b ≠ (deref s.nodes cur).board) := by
      rw [List.filter_filter]
      congr 1
      funext b
      simp [List.mem_append, not_or, Bool.and_comm]
    rw [e]
    apply List.length_filter_lt_length_iff_exists.2
    refine ⟨(deref s.nodes cur).board, ?_, by simp⟩
    rw [List.mem_filter]
    exact ⟨mem_validBoards hvb, by simpa using hB⟩

/-- The loop terminates from every state satisfying the invariant. -/
theorem loop_terminates (addr : Nat → Nat) (start goal : Board) :
    ∀ (u d : Nat) (s : Search), unvisited s = u → stale s = d → Inv start goal s →
      ∃ n r, loop addr goal n s = some r := by
  intro u
  induction u using Nat.strong_induction_on with
  | _ u ihu =>
    intro d
    induction d using Nat.strong_induction_on with
    | _ d ihd =>
      intro s hu hd hinv
      rcases ht : topOf addr s.frontier with _ | cur
      · exact ⟨1, [], by simp [loop, step, ht]⟩
      · by_cases hg : (deref s.nodes cur).board = goal
        · exact ⟨1, (chain s.nodes s.nodes.length cur).reverse,
            by simp only [loop, step, ht, hg, if_true]⟩
        · have hcur : cur < s.nodes.length := hinv.front_lt cur (topOf_mem addr _ _ ht)
          have hstep := step_eq addr goal s cur ht hg (hinv.node_ok cur hcur).2.1
          have hinv' := step_inv hinv ht hg
          rcases step_decrease goal hinv ht with hlt | ⟨heq, hlt⟩
          · obtain ⟨n, r, hr⟩ := ihu _ (hu ▸ hlt) _ _ rfl rfl hinv'
            exact ⟨n + 1, r, by simp only [loop, hstep]; exact hr⟩
          · obtain ⟨n, r, hr⟩ := ihd _ (hd ▸ hlt) _ (heq.trans hu) rfl hinv'
            exact ⟨n + 1, r, by simp only [loop, hstep]; exact hr⟩

/-- More fuel does not change a result. -/
theorem loop_mono (addr : Nat → Nat) (goal : Board) :
    ∀ (n : Nat) (s : Search) (r : List State), loop addr goal n s = some r →
      ∀ m, n ≤ m → loop addr goal m s = some r := by
  intro n
  induction n with
  | zero => intro s r h; simp [loop] at h
  | succ n ih =>
    intro s r h m hm
    obtain ⟨m, rfl⟩ : ∃ m', m = m' + 1 := ⟨m - 1, by omega⟩
    simp only [loop] at h ⊢
    rcases hs : step addr goal s with path | s1
    · rw [hs] at h; exact h
    · rw [hs] at h
      exact ih s1 r h m (by omega)

/-- Path reconstruction from a well-formed arena. -/
theorem chain_spec {start goal : Board} {nodes : List State}
    (hok : ∀ k, k < nodes.length → NodeOK start goal nodes k) :
    ∀ (cur fuel : Nat), cur < nodes.length → cur < fuel →
      ∃ l, chain nodes fuel cur = deref nodes cur :: l ∧
        (deref nodes cur :: l).getLast? = some (State.new start 0 (manhattan start goal)) ∧
        List.Chain' LinkRev (deref nodes cur :: l) := by
  intro cur
  induction cur using Nat.strong_induction_on with
  | _ cur ih =>
    intro fuel hcur hfuel
    obtain ⟨fuel, rfl⟩ : ∃ f, fuel = f + 1 := ⟨fuel - 1, by omega⟩
    obtain ⟨-, -, h3⟩ := hok cur hcur
    simp only [chain]
    rcases hp : (deref nodes cur).parent with _ | q
    · rw [hp] at h3
      exact ⟨[], rfl, by simp [h3.2], List.chain'_singleton _⟩
    · rw [hp] at h3
      obtain ⟨hq, hlink⟩ := h3
      obtain ⟨l, hl, hlast, hch⟩ := ih q hq fuel (by omega) (by omega)
      refine ⟨deref nodes q :: l, by simp only [hl], ?_, ?_⟩
      · rw [List.getLast?_cons_cons]; exact hlast
      · exact List.Chain'.cons hlink hch

theorem chain'_linkRev {l : List State} (h : List.Chain' LinkRev l) :
    List.Chain' Link l.reverse :=
  List.chain'_reverse.2 h

/-- With an empty frontier the visited set holds everything reachable from `start`. -/
theorem closed_reach {start : Board} {s : Search} (hcl : Closed start s)
    (hf : s.frontier = []) : ∀ (k : Nat) (b c : Board), b ∈ s.visited → ReachIn k b c →
      c ∈ s.visited := by
  intro k
  induction k with
  | zero => intro b c hb h; exact h ▸ hb
  | succ k ih =>
    intro b c hb h
    obtain ⟨d, hd, hr⟩ := h
    rcases hcl.closed b hb d hd with h' | ⟨p, hp, -⟩
    · exact ih d c h' hr
    · rw [hf] at hp; simp at hp

/-- The result of the loop satisfies `Post`. -/
theorem loop_post (addr : Nat → Nat) (start goal : Board) :
    ∀ (n : Nat) (s : Search) (r : List State), Inv start goal s → Closed start s →
      loop addr goal n s = some r → Post start goal r := by
  intro n
  induction n with
  | zero => intro s r _ _ h; simp [loop] at h
  | succ n ih =>
    intro s r hinv hcl h
    simp only [loop] at h
    rcases ht : topOf addr s.frontier with _ | cur
    · have hf := topOf_none addr _ ht
      simp only [step, ht, Option.some.injEq] at h
      subst h
      refine ⟨fun _ hreach => ?_, fun h => absurd rfl h⟩
      obtain ⟨k, hk⟩ := hreach
      have hstart : start ∈ s.visited := by
        rcases hcl.start_seen with h | ⟨p, hp, -⟩
        · exact h
        · rw [hf] at hp; simp at hp
      exact (hinv.vis_ok goal (closed_reach hcl hf k start goal hstart hk)).2 rfl
    · have hcur : cur < s.nodes.length := hinv.front_lt cur (topOf_mem addr _ _ ht)
      by_cases hg : (deref s.nodes cur).board = goal
      · simp only [step, ht, hg, if_true, Option.some.injEq] at h
        subst h
        obtain ⟨l, hl, hlast, hch⟩ := chain_spec hinv.node_ok cur s.nodes.length hcur hcur
        rw [hl]
        refine ⟨fun h => by simp at h, fun _ => ⟨?_, ?_, chain'_linkRev hch⟩⟩
        · rw [List.head?_reverse, hlast]; rfl
        · rw [List.getLast?_reverse]; simp [hg]
      · rw [step_eq addr goal s cur ht hg (hinv.node_ok cur hcur).2.1] at h
        exact ih _ r (step_inv hinv ht hg) (step_closed hinv hcl ht) h

theorem link_legal {p n : State} (hp : valid p.board) (h : Link p n) :
    LegalStep p n ∧ valid n.board := by
  obtain ⟨i, hi, hs, hmove, htile, -⟩ := h
  have hv := (slide_facts hp hi hs).1
  obtain ⟨h1, h2, -, h4, h5, h6, h7⟩ := slide_swapOf hp hi hs
  refine ⟨⟨_, _, _, _, h1, h2, h4, ?_, hv.1, h5, ?_, htile, h7⟩, hv⟩
  · have : i = 0 ∨ i = 1 ∨ i = 2 ∨ i = 3 := by omega
    rcases this with rfl | rfl | rfl | rfl
    · exact Or.inl ⟨hmove, by simp [dr]; omega, by simp [dc]⟩
    · exact Or.inr (Or.inl ⟨hmove, by simp [dr], by simp [dc]⟩)
    · exact Or.inr (Or.inr (Or.inl ⟨hmove, by simp [dr], by simp [dc]; omega⟩))
    · exact Or.inr (Or.inr (Or.inr ⟨hmove, by simp [dr], by simp [dc]⟩))
  · rw [h6, htile]

theorem chain_legal : ∀ (l : List State), List.Chain' Link l →
    (∀ x, l.head? = some x → valid x.board) →
    ∀ (k : Nat) (p n : State), l[k]? = some p → l[k + 1]? = some n → LegalStep p n := by
  intro l
  induction l with
  | nil => intro _ _ k p n hp; simp at hp
  | cons x l ih =>
    intro hch hx k p n hp hn
    cases l with
    | nil => simp at hn
    | cons y l =>
      have hxy := (List.chain'_cons.1 hch).1
      have hvx := hx x rfl
      cases k with
      | zero =>
        simp only [List.getElem?_cons_zero, Option.some.injEq, zero_add,
          List.getElem?_cons_succ] at hp hn
        subst hp hn
        exact (link_legal hvx hxy).1
      | succ k =>
        simp only [List.getElem?_cons_succ] at hp hn
        exact ih (List.chain'_cons.1 hch).2
          (fun z hz => by
            simp only [List.head?_cons, Option.some.injEq] at hz
            exact hz ▸ (link_legal hvx hxy).2)
          k p n hp (by simpa using hn)

theorem chain_reach : ∀ (l : List State), List.Chain' Link l → ∀ (x y : State),
    l.head? = some x → l.getLast? = some y → Reach x.board y.board := by
  intro l
  induction l with
  | nil => intro _ x y hx; simp at hx
  | cons a l ih =>
    intro hch x y hx hy
    simp only [List.head?_cons, Option.some.injEq] at hx
    subst hx
    cases l with
    | nil =>
      simp only [List.getLast?_singleton, Option.some.injEq] at hy
      subst hy
      exact reach_refl _
    | cons b l =>
      obtain ⟨hab, hch'⟩ := List.chain'_cons.1 hch
      rw [List.getLast?_cons_cons] at hy
      obtain ⟨i, hi, hs, -⟩ := hab
      exact reach_trans ⟨1, reachIn_single ⟨i, hi, hs⟩⟩ (ih hch' b y rfl hy)

theorem initial_inv {start goal : Board} (hs : valid start) :
    Inv start goal (initial start goal) := by
  refine ⟨?_, ?_, ?_⟩
  · intro p hp
    simp only [initial, List.mem_singleton] at hp
    subst hp
    simp [initial]
  · intro k hk
    simp only [initial, List.length_singleton] at hk
    obtain rfl : k = 0 := by omega
    exact ⟨hs, rfl, rfl, rfl⟩
  · intro v hv
    simp [initial] at hv

theorem initial_closed (start goal : Board) : Closed start (initial start goal) := by
  refine ⟨Or.inr ⟨0, by simp [initial], rfl⟩, ?_⟩
  intro v hv
  simp [initial] at hv

/-- Every run of `solve` on a valid start returns, and what it returns satisfies `Post`. -/
theorem solve_returns (addr : Nat → Nat) {start : Board} (goal : Board) (hs : valid start) :
    ∃ n r, (∀ fuel, n ≤ fuel → solve addr fuel start goal = some r) ∧ Post start goal r := by
  obtain ⟨n, r, hr⟩ := loop_terminates addr start goal _ _ (initial start goal) rfl rfl
    (initial_inv hs)
  exact ⟨n, r, fun fuel hf => loop_mono addr goal n _ r hr fuel hf,
    loop_post addr start goal n _ r (initial_inv hs) (initial_closed start goal) hr⟩

/-! ## `solve`: claims C1, C2, C3 and C7 -/

/-- C1, the code at the failing input: with node addresses handed out downwards the frontier
(ordered by address, not by `total`) makes `solve` return a path of 29 moves from
`[[1,2,3],[4,5,6],[0,7,8]]` to `[[1,2,3],[0,5,6],[4,7,8]]`, whatever fuel beyond 30 iterations
is given, although the goal is one legal slide away. -/
theorem solve_descending_not_minimal :
    valid [[1, 2, 3], [4, 5, 6], [0, 7, 8]] ∧ valid [[1, 2, 3], [0, 5, 6], [4, 7, 8]] ∧
    ReachIn 1 [[1, 2, 3], [4, 5, 6], [0, 7, 8]] [[1, 2, 3], [0, 5, 6], [4, 7, 8]] ∧
    ∀ m, ∃ path, solve descending (30 + m) [[1, 2, 3], [4, 5, 6], [0, 7, 8]]
        [[1, 2, 3], [0, 5, 6], [4, 7, 8]] = some path ∧
      path.length - 1 = 29 ∧
      path.head?.map State.board = some [[1, 2, 3], [4, 5, 6], [0, 7, 8]] ∧
      path.getLast?.map State.board = some [[1, 2, 3], [0, 5, 6], [4, 7, 8]] := by
  refine ⟨by decide, by decide, ⟨_, ⟨0, by decide, by decide⟩, rfl⟩, ?_⟩
  have h : ∃ path, solve descending 30 [[1, 2, 3], [4, 5, 6], [0, 7, 8]]
        [[1, 2, 3], [0, 5, 6], [4, 7, 8]] = some path ∧
      path.length - 1 = 29 ∧
      path.head?.map State.board = some [[1, 2, 3], [4, 5, 6], [0, 7, 8]] ∧
      path.getLast?.map State.board = some [[1, 2, 3], [0, 5, 6], [4, 7, 8]] := by
    have e : ((solve descending 30 [[1, 2, 3], [4, 5, 6], [0, 7, 8]]
        [[1, 2, 3], [0, 5, 6], [4, 7, 8]]).map fun path =>
          (path.length - 1, path.head?.map State.board, path.getLast?.map State.board)) =
        some (29, some [[1, 2, 3], [4, 5, 6], [0, 7, 8]],
          some [[1, 2, 3], [0, 5, 6], [4, 7, 8]]) := by
      set_option maxRecDepth 100000 in decide
    rcases hs : solve descending 30 [[1, 2, 3], [4, 5, 6], [0, 7, 8]]
        [[1, 2, 3], [0, 5, 6], [4, 7, 8]] with _ | path
    · rw [hs] at e; simp at e
    · rw [hs] at e
      simp only [Option.map_some', Option.some.injEq, Prod.mk.injEq] at e
      exact ⟨path, rfl, e.1, e.2.1, e.2.2⟩
  intro m
  obtain ⟨path, hp, hrest⟩ := h
  exact ⟨path, loop_mono descending _ 30 _ path hp (30 + m) (Nat.le_add_right 30 m), hrest⟩

/-- C2: completeness of `solve`: for valid boards `start` and `goal` with
`is_solvable(start) == is_solvable(goal)`, whatever the node addresses, `solve` returns (for
every sufficient number of loop iterations) one non-empty sequence whose first entry has board
`start` and whose last entry has board `goal`. -/
theorem solve_complete (addr : Nat → Nat) (start goal : Board) (hs : valid start)
    (hg : valid goal) (h : is_solvable start = is_solvable goal) :
    ∃ n path, (∀ fuel, n ≤ fuel → solve addr fuel start goal = some path) ∧ path ≠ [] ∧
      path.head?.map State.board = some start ∧ path.getLast?.map State.board = some goal := by
  obtain ⟨n, r, hr, hpost⟩ := solve_returns addr goal hs
  have hne : r ≠ [] := fun he => hpost.1 he (reach_of_parity hs hg h)
  exact ⟨n, r, hr, hne, (hpost.2 hne).1, (hpost.2 hne).2.1⟩

theorem solve_complete_witness :
    valid [[8, 1, 3], [4, 0, 2], [7, 6, 5]] ∧ valid [[1, 2, 3], [4, 5, 6], [7, 8, 0]] ∧
    is_solvable [[8, 1, 3], [4, 0, 2], [7, 6, 5]] = is_solvable [[1, 2, 3], [4, 5, 6], [7, 8, 0]] ∧
    ∃ n path, (∀ fuel, n ≤ fuel → solve (fun k => k) fuel [[8, 1, 3], [4, 0, 2], [7, 6, 5]]
        [[1, 2, 3], [4, 5, 6], [7, 8, 0]] = some path) ∧ path ≠ [] ∧
      path.head?.map State.board = some [[8, 1, 3], [4, 0, 2], [7, 6, 5]] ∧
      path.getLast?.map State.board = some [[1, 2, 3], [4, 5, 6], [7, 8, 0]] :=
  ⟨by decide, by decide, by decide,
    solve_complete (fun k => k) _ _ (by decide) (by decide) (by decide)⟩

/-- C3: every step of a returned path is one legal slide matching its record: for valid
`start` and `goal` and any two consecutive entries `p`, `n` of the sequence returned by
`solve`, `n.board` is `p.board` with the blank exchanged with the in-bounds neighbour in the
direction `n.move` (UP = row-1, DOWN = row+1, LEFT = col-1, RIGHT = col+1), all other cells
unchanged, and `n.moved_tile` is the tile that was in that neighbour cell of `p.board` and now
occupies the blank's old cell in `n.board`. -/
theorem solve_steps_legal (addr : Nat → Nat) (fuel : Nat) (start goal : Board)
    (path : List State) (hs : valid start) (_hg : valid goal)
    (h : solve addr fuel start goal = some path) (k : Nat) (p n : State)
    (hp : path[k]? = some p) (hn : path[k + 1]? = some n) : LegalStep p n := by
  have hpost := loop_post addr start goal fuel _ path (initial_inv hs)
    (initial_closed start goal) h
  have hne : path ≠ [] := by
    rintro rfl
    simp at hp
  obtain ⟨hhead, -, hch⟩ := hpost.2 hne
  refine chain_legal path hch (fun x hx => ?_) k p n hp hn
  rw [hx] at hhead
  simp only [Option.map_some', Option.some.injEq] at hhead
  exact hhead ▸ hs

theorem solve_steps_legal_witness :
    valid [[1, 2, 3], [4, 5, 6], [7, 0, 8]] ∧ valid [[1, 2, 3], [4, 5, 6], [7, 8, 0]] ∧
    solve (fun k => k) 4 [[1, 2, 3], [4, 5, 6], [7, 0, 8]] [[1, 2, 3], [4, 5, 6], [7, 8, 0]] =
      some [⟨[[1, 2, 3], [4, 5, 6], [7, 0, 8]], 0, 1, 1, 2, 1, none, "", -1⟩,
        ⟨[[1, 2, 3], [4, 5, 6], [7, 8, 0]], 1, 0, 1, 2, 2, some 0, "RIGHT", 8⟩] ∧
    LegalStep ⟨[[1, 2, 3], [4, 5, 6], [7, 0, 8]], 0, 1, 1, 2, 1, none, "", -1⟩
      ⟨[[1, 2, 3], [4, 5, 6], [7, 8, 0]], 1, 0, 1, 2, 2, some 0, "RIGHT", 8⟩ :=
  ⟨by decide, by decide, by decide,
    solve_steps_legal (fun k => k) 4 [[1, 2, 3], [4, 5, 6], [7, 0, 8]]
      [[1, 2, 3], [4, 5, 6], [7, 8, 0]]
      [⟨[[1, 2, 3], [4, 5, 6], [7, 0, 8]], 0, 1, 1, 2, 1, none, "", -1⟩,
        ⟨[[1, 2, 3], [4, 5, 6], [7, 8, 0]], 1, 0, 1, 2, 2, some 0, "RIGHT", 8⟩]
      (by decide) (by decide) (by decide) 0 _ _ rfl rfl⟩

/-- C7: for valid boards with `is_solvable(start) != is_solvable(goal)`, `solve` never returns
a path: whatever the node addresses, it returns (for every sufficient number of loop
iterations) the empty sequence. -/
theorem solve_mismatch_empty (addr : Nat → Nat) (start goal : Board) (hs : valid start)
    (_hg : valid goal) (h : is_solvable start ≠ is_solvable goal) :
    ∃ n, ∀ fuel, n ≤ fuel → solve addr fuel start goal = some [] := by
  obtain ⟨n, r, hr, hpost⟩ := solve_returns addr goal hs
  have he : r = [] := by
    by_contra hne
    obtain ⟨hhead, hlast, hch⟩ := hpost.2 hne
    rcases hx : r.head? with _ | x
    · rw [hx] at hhead; simp at hhead
    · rcases hy : r.getLast? with _ | y
      · rw [hy] at hlast; simp at hlast
      · rw [hx] at hhead; rw [hy] at hlast
        simp only [Option.map_some', Option.some.injEq] at hhead hlast
        have hreach := chain_reach r hch x y hx hy
        rw [hhead, hlast] at hreach
        exact h (reach_parity hs hreach).symm
  exact ⟨n, fun fuel hf => he ▸ hr fuel hf⟩

theorem solve_mismatch_empty_witness :
    valid [[1, 2, 3], [4, 5, 6], [8, 7, 0]] ∧ valid [[1, 2, 3], [4, 5, 6], [7, 8, 0]] ∧
    is_solvable [[1, 2, 3], [4, 5, 6], [8, 7, 0]] ≠ is_solvable [[1, 2, 3], [4, 5, 6], [7, 8, 0]] ∧
    ∃ n, ∀ fuel, n ≤ fuel → solve (fun k => k) fuel [[1, 2, 3], [4, 5, 6], [8, 7, 0]]
      [[1, 2, 3], [4, 5, 6], [7, 8, 0]] = some [] :=
  ⟨by decide, by decide, by decide,
    solve_mismatch_empty (fun k => k) _ _ (by decide) (by decide) (by decide)⟩

/-! ## Claims C11, C14 and C19 -/

/-- C11: when start equals goal, `solve` returns a path with no moves: for every valid board
`b`, whatever the node addresses, `solve(b, b)` returns (as soon as one loop iteration is
allowed) exactly one entry, whose board is `b`, with moves 0, no parent, empty move label and
`moved_tile` -1. -/
theorem solve_same_board (addr : Nat → Nat) (fuel : Nat) (b : Board) (hb : valid b) :
    ∃ e, solve addr (fuel + 1) b b = some [e] ∧ e.board = b ∧ e.moves = 0 ∧
      e.heuristic = 0 ∧ e.total = 0 ∧ e.parent = none ∧ e.move = "" ∧ e.moved_tile = -1 := by
  have h0 : manhattan b b = 0 := by
    rw [manhattan_eq_ref hb hb]
    simp [manhattanRef, cellDist_self]
  refine ⟨State.new b 0 (manhattan b b), ?_, rfl, rfl, h0, by simp [State.new, h0], rfl, rfl, rfl⟩
  simp [solve, loop, step, initial, topOf, deref, chain, State.new]

theorem solve_same_board_witness :
    valid [[1, 2, 3], [4, 5, 6], [7, 8, 0]] ∧
    ∃ e, solve (fun k => k) (0 + 1) [[1, 2, 3], [4, 5, 6], [7, 8, 0]]
        [[1, 2, 3], [4, 5, 6], [7, 8, 0]] = some [e] ∧
      e.board = [[1, 2, 3], [4, 5, 6], [7, 8, 0]] ∧ e.moves = 0 ∧
      e.heuristic = 0 ∧ e.total = 0 ∧ e.parent = none ∧ e.move = "" ∧ e.moved_tile = -1 :=
  ⟨by decide, solve_same_board (fun k => k) 0 _ (by decide)⟩

/-- C14: `manhattan` equals its reference definition: for all valid boards `current` and
`goal`, `manhattan(current, goal)` is the sum, over the 8 non-blank tiles `t`, of
`|row_current(t) - row_goal(t)| + |col_current(t) - col_goal(t)|`, each tile counted once. -/
theorem manhattan_eq_reference (current goal : Board) (hc : valid current) (hg : valid goal) :
    manhattan current goal =
      ([1, 2, 3, 4, 5, 6, 7, 8].map fun t =>
        (Int.natAbs ((posOf current t).1 - (posOf goal t).1) : Int) +
          (Int.natAbs ((posOf current t).2 - (posOf goal t).2) : Int)).sum := by
  rw [manhattan_eq_ref hc hg]
  rfl

theorem manhattan_eq_reference_witness :
    valid [[8, 1, 3], [4, 0, 2], [7, 6, 5]] ∧ valid [[1, 2, 3], [4, 5, 6], [7, 8, 0]] ∧
    manhattan [[8, 1, 3], [4, 0, 2], [7, 6, 5]] [[1, 2, 3], [4, 5, 6], [7, 8, 0]] =
      ([1, 2, 3, 4, 5, 6, 7, 8].map fun t =>
        (Int.natAbs ((posOf [[8, 1, 3], [4, 0, 2], [7, 6, 5]] t).1 -
            (posOf [[1, 2, 3], [4, 5, 6], [7, 8, 0]] t).1) : Int) +
          (Int.natAbs ((posOf [[8, 1, 3], [4, 0, 2], [7, 6, 5]] t).2 -
            (posOf [[1, 2, 3], [4, 5, 6], [7, 8, 0]] t).2) : Int)).sum :=
  ⟨by decide, by decide, manhattan_eq_reference _ _ (by decide) (by decide)⟩

/-- C19: `solve` terminates on every valid input: for valid boards `start` and `goal`,
reachable or not, and whatever the node addresses, the loop makes finitely many iterations:
there is a number `n` of iterations after which `solve` has returned one definite vector (a
path or the empty sequence). -/
theorem solve_terminates (addr : Nat → Nat) (start goal : Board) (hs : valid start)
    (_hg : valid goal) :
    ∃ n r, (∀ fuel, n ≤ fuel → solve addr fuel start goal = some r) ∧
      ∀ fuel r', solve addr fuel start goal = some r' → r' = r := by
  obtain ⟨n, r, hr, -⟩ := solve_returns addr goal hs
  refine ⟨n, r, hr, ?_⟩
  intro fuel r' h'
  have h1 := loop_mono addr goal fuel _ r' h' (max fuel n) (le_max_left _ _)
  have h2 := hr (max fuel n) (le_max_right _ _)
  unfold solve at h2
  rw [h1] at h2
  exact Option.some.inj h2

theorem solve_terminates_witness :
    valid [[1, 2, 3], [4, 5, 6], [8, 7, 0]] ∧ valid [[1, 2, 3], [4, 5, 6], [7, 8, 0]] ∧
    ∃ n r, (∀ fuel, n ≤ fuel → solve (fun k => k) fuel [[1, 2, 3], [4, 5, 6], [8, 7, 0]]
        [[1, 2, 3], [4, 5, 6], [7, 8, 0]] = some r) ∧
      ∀ fuel r', solve (fun k => k) fuel [[1, 2, 3], [4, 5, 6], [8, 7, 0]]
        [[1, 2, 3], [4, 5, 6], [7, 8, 0]] = some r' → r' = r :=
  ⟨by decide, by decide, solve_terminates (fun k => k) _ _ (by decide) (by decide)⟩

/-! ## The heuristic along slides: claims C15 and C16 -/

theorem moveCheck_all : ∀ p, p < 9 → ∀ i, i < 4 → moveCheck p i = true := by decide

theorem mem_range9 {t : Int} (h0 : 0 ≤ t) (h8 : t ≤ 8) : t ∈ [0, 1, 2, 3, 4, 5, 6, 7, 8] := by
  have : t = 0 ∨ t = 1 ∨ t = 2 ∨ t = 3 ∨ t = 4 ∨ t = 5 ∨ t = 6 ∨ t = 7 ∨ t = 8 := by omega
  rcases this with h | h | h | h | h | h | h | h | h <;> subst h <;> decide

theorem range9_bounds {t : Int} (h : t ∈ [0, 1, 2, 3, 4, 5, 6, 7, 8]) : 0 ≤ t ∧ t ≤ 8 := by
  simp only [List.mem_cons, List.mem_singleton, List.not_mem_nil, or_false] at h
  omega

theorem flatten_canon : ∀ p, p < 9 → List.Perm (canon p).flatten [0, 1, 2, 3, 4, 5, 6, 7, 8] := by
  decide

theorem canon_entries : ∀ p, p < 9 → ∀ r ∈ canon p, ∀ t ∈ r, 0 ≤ t ∧ t ≤ 8 := by decide

/-- A valid board as a renaming of a canonical board by a permutation of the labels. -/
theorem canon_form_perm {b : Board} (hb : valid b) :
    ∃ p, p < 9 ∧ b = relabel (labelPerm b) (canon p) ∧ (∀ t, labelPerm b t = 0 ↔ t = 0) ∧
      Function.Injective (labelPerm b) ∧
      List.Perm ([1, 2, 3, 4, 5, 6, 7, 8].map (labelPerm b)) [1, 2, 3, 4, 5, 6, 7, 8] := by
  obtain ⟨p, hp, hbe, -⟩ := canon_form hb
  have hz := labelOf_zero b
  have hrel : relabel (labelPerm b) (canon p) = relabel (labelOf b) (canon p) := by
    unfold relabel
    apply List.map_congr_left
    intro r hr
    apply List.map_congr_left
    intro t ht
    simp only [labelPerm, canon_entries p hp r hr t ht, and_self, if_true]
  have hbe' : b = relabel (labelPerm b) (canon p) := by rw [hrel]; exact hbe
  have hzero : ∀ t, labelPerm b t = 0 ↔ t = 0 := by
    intro t
    unfold labelPerm
    split_ifs with h
    · exact hz t
    · exact Iff.rfl
  have hflat : List.Perm ([0, 1, 2, 3, 4, 5, 6, 7, 8].map (labelPerm b))
      [0, 1, 2, 3, 4, 5, 6, 7, 8] := by
    have h1 : b.flatten = (canon p).flatten.map (labelPerm b) := by
      conv_lhs => rw [hbe']
      exact flatten_relabel _ _
    exact (((flatten_canon p hp).map (labelPerm b)).symm.trans (h1 ▸ hb.2))
  have h0 : labelPerm b 0 = 0 := (hzero 0).2 rfl
  have hperm : List.Perm ([1, 2, 3, 4, 5, 6, 7, 8].map (labelPerm b))
      [1, 2, 3, 4, 5, 6, 7, 8] := by
    have : List.Perm (0 :: [1, 2, 3, 4, 5, 6, 7, 8].map (labelPerm b))
        (0 :: [1, 2, 3, 4, 5, 6, 7, 8]) := by
      simpa [h0] using hflat
    exact List.Perm.cons_inv this
  refine ⟨p, hp, hbe', hzero, ?_, hperm⟩
  have hnd : ([0, 1, 2, 3, 4, 5, 6, 7, 8].map (labelPerm b)).Nodup :=
    hflat.nodup_iff.2 (by decide)
  have hin : ∀ x, 0 ≤ x ∧ x ≤ 8 → 0 ≤ labelPerm b x ∧ labelPerm b x ≤ 8 := by
    intro x hx
    exact range9_bounds (hflat.mem_iff.1 (List.mem_map_of_mem _ (mem_range9 hx.1 hx.2)))
  have hout : ∀ x, ¬ (0 ≤ x ∧ x ≤ 8) → labelPerm b x = x := by
    intro x hx
    simp only [labelPerm, hx, if_false]
  intro x y hxy
  by_cases hx : 0 ≤ x ∧ x ≤ 8 <;> by_cases hy : 0 ≤ y ∧ y ≤ 8
  · exact List.inj_on_of_nodup_map hnd (mem_range9 hx.1 hx.2) (mem_range9 hy.1 hy.2) hxy
  · have h1 := hin x hx
    rw [hxy, hout y hy] at h1
    exact absurd h1 hy
  · have h1 := hin y hy
    rw [← hxy, hout x hx] at h1
    exact absurd h1 hx
  · rw [hout x hx, hout y hy] at hxy
    exact hxy

theorem posOf_relabel (f : Int → Int) (hf0 : f 0 = 0) (hinj : Function.Injective f) (c : Board)
    (s : Int) : posOf (relabel f c) (f s) = posOf c s := by
  unfold posOf
  simp only [cell_relabel f hf0, hinj.eq_iff]

theorem sum_diff_single (A A' : Int → Int) (s0 : Int) : ∀ (l : List Int), l.Nodup → s0 ∈ l →
    (∀ s ∈ l, s ≠ s0 → A' s = A s) → (l.map A').sum = (l.map A).sum + (A' s0 - A s0) := by
  intro l
  induction l with
  | nil => intro _ h; simp at h
  | cons x xs ih =>
    intro hnd hmem hsame
    obtain ⟨hx, hnd'⟩ := List.nodup_cons.1 hnd
    simp only [List.map_cons, List.sum_cons]
    by_cases hxs : x = s0
    · subst hxs
      have : xs.map A' = xs.map A := by
        apply List.map_congr_left
        intro s hs
        exact hsame s (List.mem_cons_of_mem _ hs) (fun h => hx (h ▸ hs))
      rw [this]
      omega
    · have hmem' : s0 ∈ xs := by
        rcases List.mem_cons.1 hmem with h | h
        · exact absurd h.symm hxs
        · exact h
      rw [ih hnd' hmem' (fun s hs => hsame s (List.mem_cons_of_mem _ hs)),
        hsame x (List.mem_cons_self _ _) hxs]
      omega

/-- The reference value of a renamed board, summed over the original labels. -/
theorem manhattanRef_relabel (f : Int → Int) (hf0 : f 0 = 0) (hinj : Function.Injective f)
    (hperm : List.Perm ([1, 2, 3, 4, 5, 6, 7, 8].map f) [1, 2, 3, 4, 5, 6, 7, 8])
    (c g : Board) :
    manhattanRef (relabel f c) g =
      ([1, 2, 3, 4, 5, 6, 7, 8].map fun s => cellDist (posOf c s) (posOf g (f s))).sum := by
  unfold manhattanRef
  rw [← (hperm.map _).sum_eq, List.map_map]
  congr 1
  apply List.map_congr_left
  intro s _
  simp only [Function.comp, posOf_relabel f hf0 hinj]

/-- One slide changes the heuristic by exactly one. -/
theorem manhattan_slide {b b' goal : Board} (hb : valid b) (hg : valid goal) (h : Slide b b') :
    manhattan b' goal = manhattan b goal + 1 ∨ manhattan b' goal + 1 = manhattan b goal := by
  obtain ⟨i, hi, hs⟩ := h
  have hb' : valid b' := (slide_facts hb hi hs).1
  rw [manhattan_eq_ref hb hg, manhattan_eq_ref hb' hg]
  obtain ⟨p, hp, hbe, hzero, hinj, hperm⟩ := canon_form_perm hb
  generalize labelPerm b = f at hbe hzero hinj hperm
  subst hbe
  rw [slide_relabel f hzero] at hs
  rcases hc : slide (canon p) i with _ | c
  · rw [hc] at hs; simp at hs
  · rw [hc] at hs
    simp only [Option.map_some', Option.some.injEq] at hs
    subst hs
    have hf0 : f 0 = 0 := (hzero 0).2 rfl
    rw [manhattanRef_relabel f hf0 hinj hperm, manhattanRef_relabel f hf0 hinj hperm]
    have hchk := moveCheck_all p hp i hi
    simp only [moveCheck, hc, List.any_eq_true, Bool.and_eq_true, decide_eq_true_eq,
      List.all_eq_true] at hchk
    obtain ⟨s0, hs0, hadj, hsame⟩ := hchk
    have hsum := sum_diff_single (fun s => cellDist (posOf (canon p) s) (posOf goal (f s)))
      (fun s => cellDist (posOf c s) (posOf goal (f s))) s0
      [1, 2, 3, 4, 5, 6, 7, 8] (by decide) hs0
      (fun s hs hne => by simp only [hsame s hs hne])
    rw [hsum]
    simp only [cellDist]
    omega

/-- C15: the heuristic is consistent: for all valid boards `b` and `goal` and every board
`b'` obtained from `b` by one legal blank slide, `manhattan(b, goal) <= 1 + manhattan(b', goal)`,
and the two values differ by exactly 1. -/
theorem manhattan_consistent (b b' goal : Board) (hb : valid b) (hg : valid goal)
    (h : Slide b b') :
    manhattan b goal ≤ 1 + manhattan b' goal ∧
      (manhattan b' goal = manhattan b goal + 1 ∨ manhattan b' goal + 1 = manhattan b goal) := by
  have := manhattan_slide hb hg h
  exact ⟨by omega, this⟩

theorem manhattan_consistent_witness :
    valid [[1, 2, 3], [4, 0, 5], [6, 7, 8]] ∧ valid [[1, 2, 3], [4, 5, 6], [7, 8, 0]] ∧
    Slide [[1, 2, 3], [4, 0, 5], [6, 7, 8]] [[1, 0, 3], [4, 2, 5], [6, 7, 8]] ∧
    manhattan [[1, 2, 3], [4, 0, 5], [6, 7, 8]] [[1, 2, 3], [4, 5, 6], [7, 8, 0]] ≤
      1 + manhattan [[1, 0, 3], [4, 2, 5], [6, 7, 8]] [[1, 2, 3], [4, 5, 6], [7, 8, 0]] ∧
    (manhattan [[1, 0, 3], [4, 2, 5], [6, 7, 8]] [[1, 2, 3], [4, 5, 6], [7, 8, 0]] =
        manhattan [[1, 2, 3], [4, 0, 5], [6, 7, 8]] [[1, 2, 3], [4, 5, 6], [7, 8, 0]] + 1 ∨
      manhattan [[1, 0, 3], [4, 2, 5], [6, 7, 8]] [[1, 2, 3], [4, 5, 6], [7, 8, 0]] + 1 =
        manhattan [[1, 2, 3], [4, 0, 5], [6, 7, 8]] [[1, 2, 3], [4, 5, 6], [7, 8, 0]]) :=
  ⟨by decide, by decide, ⟨0, by decide, by decide⟩,
    manhattan_consistent _ _ _ (by decide) (by decide) ⟨0, by decide, by decide⟩⟩

/-- The heuristic never exceeds the number of slides of a connection. -/
theorem manhattan_le_reachIn {goal : Board} (hg : valid goal) :
    ∀ (k : Nat) (b : Board), valid b → ReachIn k b goal → manhattan b goal ≤ k := by
  intro k
  induction k with
  | zero =>
    intro b hb h
    have hbg : b = goal := h
    subst hbg
    rw [manhattan_eq_ref hb hb]
    simp [manhattanRef, cellDist_self]
  | succ k ih =>
    intro b hb h
    obtain ⟨c, hc, hr⟩ := h
    have h1 := ih c (slide_valid hb hc) hr
    have h2 := manhattan_slide hb hg hc
    push_cast
    omega

/-- C16: the heuristic is admissible: for all valid boards `b` and `goal` and every `k`, if
`goal` can be obtained from `b` by a sequence of `k` legal blank slides then
`manhattan(b, goal) <= k`. -/
theorem manhattan_admissible (b goal : Board) (k : Nat) (hb : valid b) (hg : valid goal)
    (h : ReachIn k b goal) : manhattan b goal ≤ k :=
  manhattan_le_reachIn hg k b hb h

theorem manhattan_admissible_witness :
    valid [[1, 2, 3], [4, 5, 6], [7, 0, 8]] ∧ valid [[1, 2, 3], [4, 5, 6], [7, 8, 0]] ∧
    ReachIn 1 [[1, 2, 3], [4, 5, 6], [7, 0, 8]] [[1, 2, 3], [4, 5, 6], [7, 8, 0]] ∧
    manhattan [[1, 2, 3], [4, 5, 6], [7, 0, 8]] [[1, 2, 3], [4, 5, 6], [7, 8, 0]] ≤ (1 : Nat) :=
  ⟨by decide, by decide, ⟨_, ⟨3, by decide, by decide⟩, rfl⟩,
    manhattan_admissible _ _ 1 (by decide) (by decide) ⟨_, ⟨3, by decide, by decide⟩, rfl⟩⟩

/-! ## Search traces: iterations, reconstructed pointers and ancestors -/

/-- The search state after one iteration that does not return. -/
theorem iter_succ_of_step {addr : Nat → Nat} {goal : Board} {s s1 : Search} (k : Nat)
    (h : step addr goal s = Sum.inr s1) : iter addr goal (k + 1) s = iter addr goal k s1 := by
  simp only [iter, h]

/-- What a non-returning iteration looks like. -/
theorem step_inr {addr : Nat → Nat} {start goal : Board} {s s1 : Search}
    (hinv : Inv start goal s) (h : step addr goal s = Sum.inr s1) :
    ∃ cur, topOf addr s.frontier = some cur ∧ (deref s.nodes cur).board ≠ goal ∧
      s1 = pushAll (popped s cur)
        (allKids goal (deref s.nodes cur) cur (popped s cur).visited) := by
  rcases ht : topOf addr s.frontier with _ | cur
  · simp [step, ht] at h
  · by_cases hg : (deref s.nodes cur).board = goal
    · simp [step, ht, hg] at h
    · have hcur : cur < s.nodes.length := hinv.front_lt cur (topOf_mem addr _ _ ht)
      rw [step_eq addr goal s cur ht hg (hinv.node_ok cur hcur).2.1] at h
      exact ⟨cur, rfl, hg, (Sum.inr.inj h).symm⟩

/-- A property kept by every iteration holds at every iteration. -/
theorem iter_inv {addr : Nat → Nat} {start goal : Board} (P : Search → Prop)
    (hP : ∀ s cur, Inv start goal s → P s → topOf addr s.frontier = some cur →
      (deref s.nodes cur).board ≠ goal →
      P (pushAll (popped s cur) (allKids goal (deref s.nodes cur) cur (popped s cur).visited))) :
    ∀ (k : Nat) (s0 s : Search), Inv start goal s0 → P s0 → iter addr goal k s0 = some s →
      Inv start goal s ∧ P s := by
  intro k
  induction k with
  | zero =>
    intro s0 s hinv hp h
    simp only [iter, Option.some.injEq] at h
    exact h ▸ ⟨hinv, hp⟩
  | succ k ih =>
    intro s0 s hinv hp h
    simp only [iter] at h
    rcases hst : step addr goal s0 with path | s1
    · rw [hst] at h; simp at h
    · rw [hst] at h
      obtain ⟨cur, ht, hg, rfl⟩ := step_inr hinv hst
      exact ih _ s (step_inv hinv ht hg) (hP s0 cur hinv hp ht hg) h

/-- A returned path comes from the state of some iteration where the top is a goal node. -/
theorem loop_found (addr : Nat → Nat) (goal : Board) :
    ∀ (n : Nat) (s0 : Search) (r : List State), loop addr goal n s0 = some r → r ≠ [] →
      ∃ k s cur, iter addr goal k s0 = some s ∧ topOf addr s.frontier = some cur ∧
        (deref s.nodes cur).board = goal ∧ r = (chain s.nodes s.nodes.length cur).reverse ∧
        loopFound addr goal n s0 = some (s, cur) := by
  intro n
  induction n with
  | zero => intro s0 r h; simp [loop] at h
  | succ n ih =>
    intro s0 r h hne
    simp only [loop] at h
    rcases hst : step addr goal s0 with path | s1
    · rw [hst] at h
      simp only [Option.some.injEq] at h
      subst h
      rcases ht : topOf addr s0.frontier with _ | cur
      · simp only [step, ht, Sum.inl.injEq] at hst
        exact absurd hst.symm hne
      · by_cases hg : (deref s0.nodes cur).board = goal
        · simp only [step, ht, hg, if_true, Sum.inl.injEq] at hst
          exact ⟨0, s0, cur, rfl, ht, hg, hst.symm, by simp [loopFound, step, ht, hg]⟩
        · simp [step, ht, hg] at hst
    · rw [hst] at h
      obtain ⟨k, s, cur, hk, ht, hg, hr, hf⟩ := ih s1 r h hne
      exact ⟨k + 1, s, cur, by rw [iter_succ_of_step k hst]; exact hk, ht, hg, hr,
        by simp only [loopFound, hst]; exact hf⟩

/-- Path reconstruction does not depend on the bound, nor on nodes allocated later. -/
theorem chain_stable {start goal : Board} {nodes : List State}
    (hok : ∀ k, k < nodes.length → NodeOK start goal nodes k) (l : List State) :
    ∀ (cur f f' : Nat), cur < nodes.length → cur < f → cur < f' →
      chain (nodes ++ l) f cur = chain nodes f' cur := by
  intro cur
  induction cur using Nat.strong_induction_on with
  | _ cur ih =>
    intro f f' hcur hf hf'
    obtain ⟨f, rfl⟩ : ∃ g, f = g + 1 := ⟨f - 1, by omega⟩
    obtain ⟨f', rfl⟩ : ∃ g, f' = g + 1 := ⟨f' - 1, by omega⟩
    simp only [chain, deref_append_left l hcur]
    obtain ⟨-, -, h3⟩ := hok cur hcur
    rcases hp : (deref nodes cur).parent with _ | q
    · rfl
    · rw [hp] at h3
      simp only
      rw [ih q h3.1 f f' (by omega) (by omega) (by omega)]

theorem chain_fuel {start goal : Board} {nodes : List State}
    (hok : ∀ k, k < nodes.length → NodeOK start goal nodes k) (cur f f' : Nat)
    (hcur : cur < nodes.length) (hf : cur < f) (hf' : cur < f') :
    chain nodes f cur = chain nodes f' cur := by
  have := chain_stable hok [] cur f f' hcur hf hf'
  simpa using this

/-- The reconstructed path is the node followed by its proper ancestors. -/
theorem chain_eq_cons {start goal : Board} {nodes : List State}
    (hok : ∀ k, k < nodes.length → NodeOK start goal nodes k) (cur f : Nat)
    (hcur : cur < nodes.length) (hf : cur < f) :
    chain nodes f cur = deref nodes cur :: ancestors nodes cur := by
  rw [chain_fuel hok cur f (cur + 1) hcur hf (Nat.lt_succ_self cur)]
  unfold ancestors
  simp only [chain, List.tail_cons]

/-- The proper ancestors of a node with parent `q` are `q` and the proper ancestors of `q`. -/
theorem ancestors_of_parent {start goal : Board} {nodes : List State}
    (hok : ∀ k, k < nodes.length → NodeOK start goal nodes k) (cur q : Nat)
    (hcur : cur < nodes.length) (hq : q < cur) (hp : (deref nodes cur).parent = some q) :
    ancestors nodes cur = deref nodes q :: ancestors nodes q := by
  unfold ancestors
  simp only [chain, hp, List.tail_cons]
  have := chain_eq_cons hok q cur (by omega) hq
  unfold ancestors at this
  exact this

theorem ancestors_of_root {nodes : List State} {cur : Nat}
    (hp : (deref nodes cur).parent = none) : ancestors nodes cur = [] := by
  unfold ancestors
  simp only [chain, hp, List.tail_cons]

/-- The boards along a reconstructed path are pairwise different and valid. -/
theorem chain_nodup {start goal : Board} {s : Search} (hinv : Inv start goal s)
    (hanc : AncOK s) :
    ∀ (cur : Nat), cur < s.nodes.length →
      ((deref s.nodes cur :: ancestors s.nodes cur).map State.board).Nodup ∧
      ∀ x ∈ deref s.nodes cur :: ancestors s.nodes cur, valid x.board := by
  intro cur
  induction cur using Nat.strong_induction_on with
  | _ cur ih =>
    intro hcur
    obtain ⟨hv, -, h3⟩ := hinv.node_ok cur hcur
    have ha := hanc cur hcur
    rcases hp : (deref s.nodes cur).parent with _ | q
    · rw [ancestors_of_root hp]
      exact ⟨by simp, by simpa using hv⟩
    · rw [hp] at h3
      have hq : q < s.nodes.length := by omega
      obtain ⟨ih1, ih2⟩ := ih q h3.1 hq
      rw [ancestors_of_parent hinv.node_ok cur q hcur h3.1 hp] at ha ⊢
      refine ⟨?_, ?_⟩
      · rw [List.map_cons, List.nodup_cons]
        refine ⟨?_, ih1⟩
        intro hmem
        obtain ⟨x, hx, hxb⟩ := List.mem_map.1 hmem
        exact (ha x hx).2 hxb
      · intro x hx
        rcases List.mem_cons.1 hx with h | h
        · exact h ▸ hv
        · exact ih2 x h

theorem ancestors_append {start goal : Board} {nodes : List State}
    (hok : ∀ k, k < nodes.length → NodeOK start goal nodes k) (l : List State) {k : Nat}
    (hk : k < nodes.length) : ancestors (nodes ++ l) k = ancestors nodes k := by
  unfold ancestors
  rw [chain_stable hok l k (k + 1) (k + 1) hk (Nat.lt_succ_self k) (Nat.lt_succ_self k)]

/-- The ancestor property survives one iteration of the loop. -/
theorem step_anc {addr : Nat → Nat} {start goal : Board} (s : Search) (cur : Nat)
    (hinv : Inv start goal s) (hanc : AncOK s) (ht : topOf addr s.frontier = some cur)
    (hg : (deref s.nodes cur).board ≠ goal) :
    AncOK (pushAll (popped s cur)
      (allKids goal (deref s.nodes cur) cur (popped s cur).visited)) := by
  have hinv' := step_inv hinv ht hg
  have hcur : cur < s.nodes.length := hinv.front_lt cur (topOf_mem addr _ _ ht)
  obtain ⟨hvb, hblank, -⟩ := hinv.node_ok cur hcur
  have hv : ∀ v ∈ s.visited, valid v := fun v h => (hinv.vis_ok v h).1
  have hv' : ∀ v ∈ (popped s cur).visited, valid v := by
    intro v h
    rcases (mem_visitedInsert hv hvb v).1 h with h | rfl
    · exact hv v h
    · exact hvb
  have hmono : ∀ w, w ∈ s.visited → w ∈ (popped s cur).visited := fun w h =>
    (mem_visitedInsert hv hvb w).2 (Or.inl h)
  have hB : (deref s.nodes cur).board ∈ (popped s cur).visited :=
    (mem_visitedInsert hv hvb _).2 (Or.inr rfl)
  obtain ⟨hkids, -⟩ := allKids_facts goal cur hv' hvb hblank
  intro k hk x hx
  simp only [pushAll, popped, List.length_append] at hk hx ⊢
  rcases Nat.lt_or_ge k s.nodes.length with hlt | hge
  · rw [ancestors_append hinv.node_ok _ hlt] at hx
    rw [deref_append_left _ hlt]
    exact ⟨hmono _ (hanc k hlt x hx).1, (hanc k hlt x hx).2⟩
  · obtain ⟨j, rfl⟩ : ∃ j, k = s.nodes.length + j := ⟨k - s.nodes.length, by omega⟩
    have hj : j < (allKids goal (deref s.nodes cur) cur
        (visitedInsert s.visited (deref s.nodes cur).board)).length := by omega
    obtain ⟨-, hnv, hpar, -, -⟩ := hkids _ (List.getElem_mem hj)
    have hder := deref_append_right s.nodes _ hj
    have hok' : ∀ k, k < (s.nodes ++ allKids goal (deref s.nodes cur) cur
        (visitedInsert s.visited (deref s.nodes cur).board)).length →
        NodeOK start goal (s.nodes ++ allKids goal (deref s.nodes cur) cur
          (visitedInsert s.visited (deref s.nodes cur).board)) k := hinv'.node_ok
    have hanc' := ancestors_of_parent hok' (s.nodes.length + j) cur
      (by rw [List.length_append]; exact hk) (by omega) (by rw [hder]; exact hpar)
    rw [hanc'] at hx
    rw [hder]
    have hxin : x.board ∈ visitedInsert s.visited (deref s.nodes cur).board := by
      rcases List.mem_cons.1 hx with h | h
      · rw [h, deref_append_left _ hcur]; exact hB
      · rw [ancestors_append hinv.node_ok _ hcur] at h
        exact hmono _ (hanc cur hcur x h).1
    exact ⟨hxin, fun he => hnv (he ▸ hxin)⟩

theorem initial_anc (start goal : Board) : AncOK (initial start goal) := by
  intro k hk x hx
  simp only [initial, List.length_singleton] at hk
  obtain rfl : k = 0 := by omega
  rw [ancestors_of_root (by rfl)] at hx
  simp at hx

theorem chain_eq_map_ptrs (nodes : List State) : ∀ (n p : Nat),
    chain nodes n p = (chainPtrs nodes n p).map (deref nodes) := by
  intro n
  induction n with
  | zero => intro p; rfl
  | succ n ih =>
    intro p
    simp only [chain, chainPtrs, List.map_cons]
    rcases (deref nodes p).parent with _ | q
    · rfl
    · simp only [ih q]

theorem chainPtrs_parent (nodes : List State) : ∀ (n p : Nat),
    List.Chain' (ParentIs nodes) (chainPtrs nodes n p) := by
  intro n
  induction n with
  | zero => intro p; exact List.chain'_nil
  | succ n ih =>
    intro p
    simp only [chainPtrs]
    rcases hp : (deref nodes p).parent with _ | q
    · exact List.chain'_singleton _
    · simp only
      cases n with
      | zero => exact List.chain'_singleton _
      | succ n =>
        have := ih q
        simp only [chainPtrs] at this ⊢
        exact List.Chain'.cons hp this

theorem chain'_getElem {α : Type} {R : α → α → Prop} : ∀ (l : List α), List.Chain' R l →
    ∀ (i : Nat) (a b : α), l[i]? = some a → l[i + 1]? = some b → R a b := by
  intro l
  induction l with
  | nil => intro _ i a b ha; simp at ha
  | cons x l ih =>
    intro hch i a b ha hb
    cases l with
    | nil => simp at hb
    | cons y l =>
      cases i with
      | zero =>
        simp only [List.getElem?_cons_zero, Option.some.injEq, zero_add,
          List.getElem?_cons_succ] at ha hb
        subst ha hb
        exact (List.chain'_cons.1 hch).1
      | succ i =>
        simp only [List.getElem?_cons_succ] at ha hb
        exact ih (List.chain'_cons.1 hch).2 i a b ha (by simpa using hb)

theorem chain_moves : ∀ (l : List State), List.Chain' Link l → ∀ (x : State),
    l.head? = some x → ∀ (i : Nat) (p : State), l[i]? = some p → p.moves = x.moves + i := by
  intro l
  induction l with
  | nil => intro _ x hx; simp at hx
  | cons a l ih =>
    intro hch x hx i p hp
    simp only [List.head?_cons, Option.some.injEq] at hx
    subst hx
    cases i with
    | zero =>
      simp only [List.getElem?_cons_zero, Option.some.injEq] at hp
      subst hp
      simp
    | succ i =>
      simp only [List.getElem?_cons_succ] at hp
      cases l with
      | nil => simp at hp
      | cons b l =>
        obtain ⟨hab, hch'⟩ := List.chain'_cons.1 hch
        have := ih hch' b rfl i p hp
        obtain ⟨_, _, _, _, _, hm⟩ := hab
        rw [this, hm]
        push_cast
        omega

/-- Every visited board is the board of a node that an earlier iteration took from the
frontier and expanded. -/
theorem visited_origin {addr : Nat → Nat} {start goal : Board} :
    ∀ (k : Nat) (s0 s : Search), Inv start goal s0 → iter addr goal k s0 = some s →
      ∀ v ∈ s.visited, v ∈ s0.visited ∨
        ∃ k' s' cur, k' < k ∧ iter addr goal k' s0 = some s' ∧
          topOf addr s'.frontier = some cur ∧ (deref s'.nodes cur).board = v ∧ v ≠ goal := by
  intro k
  induction k with
  | zero =>
    intro s0 s _ h v hv
    simp only [iter, Option.some.injEq] at h
    exact Or.inl (h ▸ hv)
  | succ k ih =>
    intro s0 s hinv h v hv
    simp only [iter] at h
    rcases hst : step addr goal s0 with path | s1
    · rw [hst] at h; simp at h
    · rw [hst] at h
      obtain ⟨cur, ht, hg, rfl⟩ := step_inr hinv hst
      have hcur : cur < s0.nodes.length := hinv.front_lt cur (topOf_mem addr _ _ ht)
      rcases ih _ s (step_inv hinv ht hg) h v hv with h1 | ⟨k', s', c', hk', hi', ht', hb', hne⟩
      · have h1' : v ∈ visitedInsert s0.visited (deref s0.nodes cur).board := h1
        rcases (mem_visitedInsert (fun w hw => (hinv.vis_ok w hw).1)
          (hinv.node_ok cur hcur).1 v).1 h1' with h2 | h2
        · exact Or.inl h2
        · exact Or.inr ⟨0, s0, cur, Nat.succ_pos k, rfl, ht, h2.symm, h2 ▸ hg⟩
      · exact Or.inr ⟨k' + 1, s', c', Nat.succ_lt_succ hk',
          by rw [iter_succ_of_step k' hst]; exact hi', ht', hb', hne⟩

/-! ## Claims C13 and C20 -/

/-- The state in which a run of `solve` finds the goal, with the invariants it satisfies. -/
theorem solve_found {addr : Nat → Nat} {fuel : Nat} {start goal : Board} {path : List State}
    (hs : valid start) (h : solve addr fuel start goal = some path) (hne : path ≠ []) :
    ∃ s cur, solveFound addr fuel start goal = some (s, cur) ∧ Inv start goal s ∧ AncOK s ∧
      cur < s.nodes.length ∧ path = (chain s.nodes s.nodes.length cur).reverse := by
  obtain ⟨k, s, cur, hk, ht, -, hr, hf⟩ := loop_found addr goal fuel _ path h hne
  obtain ⟨hinv, hanc⟩ := iter_inv AncOK
    (fun s cur hi ha ht hg => step_anc s cur hi ha ht hg) k _ s (initial_inv hs)
    (initial_anc start goal) hk
  exact ⟨s, cur, hf, hinv, hanc, hinv.front_lt cur (topOf_mem addr _ _ ht), hr⟩

/-- C13: path reconstruction yields start-to-goal order with length `g_goal + 1`: for valid
`start` and `goal` and every non-empty sequence returned by `solve`, the first entry is the
start node (moves 0, no parent), the entry at index `i` has `moves == i`, the length is the
last entry's `moves + 1`, and the parent pointer of every later entry is the pointer returned
just before it. -/
theorem solve_path_moves (addr : Nat → Nat) (fuel : Nat) (start goal : Board)
    (path : List State) (hs : valid start) (_hg : valid goal)
    (h : solve addr fuel start goal = some path) (hne : path ≠ []) :
    path.head? = some (State.new start 0 (manhattan start goal)) ∧
    (∀ (i : Nat) (p : State), path[i]? = some p → p.moves = i) ∧
    (∀ p, path.getLast? = some p → (path.length : Int) = p.moves + 1) ∧
    ∃ s cur, solveFound addr fuel start goal = some (s, cur) ∧
      path = (returned s cur).map (deref s.nodes) ∧
      ∀ (i q : Nat) (n : State), (returned s cur)[i]? = some q → path[i + 1]? = some n →
        n.parent = some q := by
  obtain ⟨s, cur, hf, hinv, -, hcur, hr⟩ := solve_found hs h hne
  obtain ⟨l, hl, hlast, hch⟩ := chain_spec hinv.node_ok cur s.nodes.length hcur hcur
  have hhead : path.head? = some (State.new start 0 (manhattan start goal)) := by
    rw [hr, hl, List.head?_reverse, hlast]
  have hlink : List.Chain' Link path := by
    rw [hr, hl]; exact chain'_linkRev hch
  have hmoves : ∀ (i : Nat) (p : State), path[i]? = some p → p.moves = i := by
    intro i p hp
    have := chain_moves path hlink _ hhead i p hp
    simpa [State.new] using this
  have hmap : path = (returned s cur).map (deref s.nodes) := by
    rw [hr, chain_eq_map_ptrs, returned, List.map_reverse]
  refine ⟨hhead, hmoves, ?_, s, cur, hf, hmap, ?_⟩
  · intro p hp
    rw [List.getLast?_eq_getElem?] at hp
    have := hmoves _ p hp
    have hpos : 0 < path.length := List.length_pos.2 hne
    rw [this]
    push_cast [Nat.cast_sub hpos]
    omega
  · intro i q n hq hn
    have hrev : List.Chain' (flip (ParentIs s.nodes)) (returned s cur) :=
      List.chain'_reverse.2 (by
        simpa [Function.flip_def] using chainPtrs_parent s.nodes s.nodes.length cur)
    rw [hmap, List.getElem?_map] at hn
    rcases hq' : (returned s cur)[i + 1]? with _ | q'
    · rw [hq'] at hn; simp at hn
    · rw [hq'] at hn
      simp only [Option.map_some', Option.some.injEq] at hn
      have := chain'_getElem _ hrev i q q' hq hq'
      rw [← hn]
      exact this

theorem solve_path_moves_witness :
    valid [[1, 2, 3], [4, 5, 6], [7, 0, 8]] ∧ valid [[1, 2, 3], [4, 5, 6], [7, 8, 0]] ∧
    solve (fun k => k) 4 [[1, 2, 3], [4, 5, 6], [7, 0, 8]] [[1, 2, 3], [4, 5, 6], [7, 8, 0]] =
      some [⟨[[1, 2, 3], [4, 5, 6], [7, 0, 8]], 0, 1, 1, 2, 1, none, "", -1⟩,
        ⟨[[1, 2, 3], [4, 5, 6], [7, 8, 0]], 1, 0, 1, 2, 2, some 0, "RIGHT", 8⟩] ∧
    ∀ (i : Nat) (p : State),
      [(⟨[[1, 2, 3], [4, 5, 6], [7, 0, 8]], 0, 1, 1, 2, 1, none, "", -1⟩ : State),
        ⟨[[1, 2, 3], [4, 5, 6], [7, 8, 0]], 1, 0, 1, 2, 2, some 0, "RIGHT", 8⟩][i]? = some p →
      p.moves = i :=
  ⟨by decide, by decide, by decide,
    (solve_path_moves (fun k => k) 4 [[1, 2, 3], [4, 5, 6], [7, 0, 8]]
      [[1, 2, 3], [4, 5, 6], [7, 8, 0]]
      [⟨[[1, 2, 3], [4, 5, 6], [7, 0, 8]], 0, 1, 1, 2, 1, none, "", -1⟩,
        ⟨[[1, 2, 3], [4, 5, 6], [7, 8, 0]], 1, 0, 1, 2, 2, some 0, "RIGHT", 8⟩]
      (by decide) (by decide) (by decide) (by decide)).2.1⟩

/-- C20: a returned path never revisits a state: for valid `start` and `goal`, the boards of
the entries of the sequence returned by `solve` are pairwise distinct, and every one of them
is a valid permutation of `0..8`. -/
theorem solve_path_distinct (addr : Nat → Nat) (fuel : Nat) (start goal : Board)
    (path : List State) (hs : valid start) (_hg : valid goal)
    (h : solve addr fuel start goal = some path) :
    (path.map State.board).Nodup ∧ ∀ e ∈ path, valid e.board := by
  by_cases hne : path = []
  · subst hne
    exact ⟨by simp, by simp⟩
  · obtain ⟨s, cur, -, hinv, hanc, hcur, hr⟩ := solve_found hs h hne
    obtain ⟨h1, h2⟩ := chain_nodup hinv hanc cur hcur
    rw [← chain_eq_cons hinv.node_ok cur s.nodes.length hcur hcur] at h1 h2
    rw [hr]
    refine ⟨?_, ?_⟩
    · rw [List.map_reverse]
      exact List.nodup_reverse.2 h1
    · intro e he
      exact h2 e (List.mem_reverse.1 he)

theorem solve_path_distinct_witness :
    valid [[1, 2, 3], [4, 5, 6], [7, 0, 8]] ∧ valid [[1, 2, 3], [4, 5, 6], [7, 8, 0]] ∧
    solve (fun k => k) 4 [[1, 2, 3], [4, 5, 6], [7, 0, 8]] [[1, 2, 3], [4, 5, 6], [7, 8, 0]] =
      some [⟨[[1, 2, 3], [4, 5, 6], [7, 0, 8]], 0, 1, 1, 2, 1, none, "", -1⟩,
        ⟨[[1, 2, 3], [4, 5, 6], [7, 8, 0]], 1, 0, 1, 2, 2, some 0, "RIGHT", 8⟩] ∧
    (([(⟨[[1, 2, 3], [4, 5, 6], [7, 0, 8]], 0, 1, 1, 2, 1, none, "", -1⟩ : State),
        ⟨[[1, 2, 3], [4, 5, 6], [7, 8, 0]], 1, 0, 1, 2, 2, some 0, "RIGHT", 8⟩].map
          State.board).Nodup ∧
      ∀ e ∈ [(⟨[[1, 2, 3], [4, 5, 6], [7, 0, 8]], 0, 1, 1, 2, 1, none, "", -1⟩ : State),
        ⟨[[1, 2, 3], [4, 5, 6], [7, 8, 0]], 1, 0, 1, 2, 2, some 0, "RIGHT", 8⟩],
        valid e.board) :=
  ⟨by decide, by decide, by decide,
    solve_path_distinct (fun k => k) 4 [[1, 2, 3], [4, 5, 6], [7, 0, 8]]
      [[1, 2, 3], [4, 5, 6], [7, 8, 0]] _ (by decide) (by decide) (by decide)⟩

/-! ## Claims C12, C17 and C18: what the code does at the failing inputs -/

/-- C12, the code at the failing input: `[[1,2,3],[4,5,0],[7,8,6]]` is one legal slide away
from the goal `[[1,2,3],[4,5,6],[7,8,0]]`; with node addresses handed out downwards `solve`
returns 30 entries for it (whatever fuel beyond 30 iterations is given), and with addresses
handed out upwards it returns 2 entries. -/
theorem solve_one_slide_descending :
    valid [[1, 2, 3], [4, 5, 0], [7, 8, 6]] ∧ valid [[1, 2, 3], [4, 5, 6], [7, 8, 0]] ∧
    Slide [[1, 2, 3], [4, 5, 6], [7, 8, 0]] [[1, 2, 3], [4, 5, 0], [7, 8, 6]] ∧
    (∀ m, ∃ path, solve descending (30 + m) [[1, 2, 3], [4, 5, 0], [7, 8, 6]]
        [[1, 2, 3], [4, 5, 6], [7, 8, 0]] = some path ∧ path.length = 30) ∧
    (∀ m, ∃ path, solve ascending (3 + m) [[1, 2, 3], [4, 5, 0], [7, 8, 6]]
        [[1, 2, 3], [4, 5, 6], [7, 8, 0]] = some path ∧ path.length = 2) := by
  refine ⟨by decide, by decide, ⟨0, by decide, by decide⟩, ?_, ?_⟩
  · have e : (solve descending 30 [[1, 2, 3], [4, 5, 0], [7, 8, 6]]
        [[1, 2, 3], [4, 5, 6], [7, 8, 0]]).map List.length = some 30 := by
      set_option maxRecDepth 100000 in decide
    intro m
    rcases hs : solve descending 30 [[1, 2, 3], [4, 5, 0], [7, 8, 6]]
        [[1, 2, 3], [4, 5, 6], [7, 8, 0]] with _ | path
    · rw [hs] at e; simp at e
    · rw [hs] at e
      simp only [Option.map_some', Option.some.injEq] at e
      exact ⟨path, loop_mono descending _ 30 _ path hs (30 + m) (Nat.le_add_right 30 m), e⟩
  · have e : (solve ascending 3 [[1, 2, 3], [4, 5, 0], [7, 8, 6]]
        [[1, 2, 3], [4, 5, 6], [7, 8, 0]]).map List.length = some 2 := by
      set_option maxRecDepth 100000 in decide
    intro m
    rcases hs : solve ascending 3 [[1, 2, 3], [4, 5, 0], [7, 8, 6]]
        [[1, 2, 3], [4, 5, 6], [7, 8, 0]] with _ | path
    · rw [hs] at e; simp at e
    · rw [hs] at e
      simp only [Option.map_some', Option.some.injEq] at e
      exact ⟨path, loop_mono ascending _ 3 _ path hs (3 + m) (Nat.le_add_right 3 m), e⟩

/-- C17, the code at failing inputs: whatever the node addresses, there is a solvable pair of
valid boards for which, at the second iteration, the node taken from the frontier has a
larger `total` than another node of the frontier. For `addr 1 <= addr 2` this is
`[[0,1,2],[4,3,5],[6,8,7]]` (node 1 with total 12 is taken, node 2 has total 10), otherwise
`[[0,2,1],[3,4,5],[6,8,7]]` (node 2 with total 14 is taken, node 1 has total 12). -/
theorem frontier_top_not_min_total (addr : Nat → Nat) :
    ∃ (start goal : Board) (s : Search) (cur p : Nat),
      valid start ∧ valid goal ∧ is_solvable start = is_solvable goal ∧
      iter addr goal 1 (initial start goal) = some s ∧
      topOf addr s.frontier = some cur ∧ p ∈ s.frontier ∧
      (deref s.nodes p).total < (deref s.nodes cur).total := by
  by_cases h : addr 1 ≤ addr 2
  · refine ⟨[[0, 1, 2], [4, 3, 5], [6, 8, 7]], [[1, 2, 3], [4, 5, 6], [7, 8, 0]],
      pushAll (popped (initial [[0, 1, 2], [4, 3, 5], [6, 8, 7]] [[1, 2, 3], [4, 5, 6], [7, 8, 0]]) 0)
        (allKids [[1, 2, 3], [4, 5, 6], [7, 8, 0]]
          (deref (initial [[0, 1, 2], [4, 3, 5], [6, 8, 7]]
            [[1, 2, 3], [4, 5, 6], [7, 8, 0]]).nodes 0) 0
          (popped (initial [[0, 1, 2], [4, 3, 5], [6, 8, 7]]
            [[1, 2, 3], [4, 5, 6], [7, 8, 0]]) 0).visited),
      1, 2, by decide, by decide, by decide, ?_, ?_, by decide, by decide⟩
    · simp only [iter]
      rw [step_eq addr [[1, 2, 3], [4, 5, 6], [7, 8, 0]]
        (initial [[0, 1, 2], [4, 3, 5], [6, 8, 7]] [[1, 2, 3], [4, 5, 6], [7, 8, 0]]) 0 rfl
        (by decide) (by decide)]
    · have hf : (pushAll (popped (initial [[0, 1, 2], [4, 3, 5], [6, 8, 7]]
          [[1, 2, 3], [4, 5, 6], [7, 8, 0]]) 0)
          (allKids [[1, 2, 3], [4, 5, 6], [7, 8, 0]]
            (deref (initial [[0, 1, 2], [4, 3, 5], [6, 8, 7]]
              [[1, 2, 3], [4, 5, 6], [7, 8, 0]]).nodes 0) 0
            (popped (initial [[0, 1, 2], [4, 3, 5], [6, 8, 7]]
              [[1, 2, 3], [4, 5, 6], [7, 8, 0]]) 0).visited)).frontier = [1, 2] := by decide
      rw [hf]
      simp [topOf, h]
  · refine ⟨[[0, 2, 1], [3, 4, 5], [6, 8, 7]], [[1, 2, 3], [4, 5, 6], [7, 8, 0]],
      pushAll (popped (initial [[0, 2, 1], [3, 4, 5], [6, 8, 7]] [[1, 2, 3], [4, 5, 6], [7, 8, 0]]) 0)
        (allKids [[1, 2, 3], [4, 5, 6], [7, 8, 0]]
          (deref (initial [[0, 2, 1], [3, 4, 5], [6, 8, 7]]
            [[1, 2, 3], [4, 5, 6], [7, 8, 0]]).nodes 0) 0
          (popped (initial [[0, 2, 1], [3, 4, 5], [6, 8, 7]]
            [[1, 2, 3], [4, 5, 6], [7, 8, 0]]) 0).visited),
      2, 1, by decide, by decide, by decide, ?_, ?_, by decide, by decide⟩
    · simp only [iter]
      rw [step_eq addr [[1, 2, 3], [4, 5, 6], [7, 8, 0]]
        (initial [[0, 2, 1], [3, 4, 5], [6, 8, 7]] [[1, 2, 3], [4, 5, 6], [7, 8, 0]]) 0 rfl
        (by decide) (by decide)]
    · have hf : (pushAll (popped (initial [[0, 2, 1], [3, 4, 5], [6, 8, 7]]
          [[1, 2, 3], [4, 5, 6], [7, 8, 0]]) 0)
          (allKids [[1, 2, 3], [4, 5, 6], [7, 8, 0]]
            (deref (initial [[0, 2, 1], [3, 4, 5], [6, 8, 7]]
              [[1, 2, 3], [4, 5, 6], [7, 8, 0]]).nodes 0) 0
            (popped (initial [[0, 2, 1], [3, 4, 5], [6, 8, 7]]
              [[1, 2, 3], [4, 5, 6], [7, 8, 0]]) 0).visited)).frontier = [1, 2] := by decide
      rw [hf]
      simp [topOf, h]

/-- C18, the code at the failing input: with node addresses handed out upwards, in the run
from `[[0,1,2],[3,4,7],[5,6,8]]` to `[[1,2,3],[4,5,6],[7,8,0]]` the loop has not returned
before iteration 75, and the node taken from the frontier at iteration 75 is not a goal node
and has the board of a node that an earlier iteration took from the frontier and expanded:
that board is expanded twice. -/
theorem board_expanded_twice :
    valid [[0, 1, 2], [3, 4, 7], [5, 6, 8]] ∧ valid [[1, 2, 3], [4, 5, 6], [7, 8, 0]] ∧
    is_solvable [[0, 1, 2], [3, 4, 7], [5, 6, 8]] = is_solvable [[1, 2, 3], [4, 5, 6], [7, 8, 0]] ∧
    ∃ (k1 : Nat) (s1 s2 : Search) (c1 c2 : Nat), k1 < 75 ∧
      iter ascending [[1, 2, 3], [4, 5, 6], [7, 8, 0]] k1
        (initial [[0, 1, 2], [3, 4, 7], [5, 6, 8]] [[1, 2, 3], [4, 5, 6], [7, 8, 0]]) = some s1 ∧
      iter ascending [[1, 2, 3], [4, 5, 6], [7, 8, 0]] 75
        (initial [[0, 1, 2], [3, 4, 7], [5, 6, 8]] [[1, 2, 3], [4, 5, 6], [7, 8, 0]]) = some s2 ∧
      topOf ascending s1.frontier = some c1 ∧ topOf ascending s2.frontier = some c2 ∧
      (deref s1.nodes c1).board = (deref s2.nodes c2).board ∧
      (deref s2.nodes c2).board ≠ [[1, 2, 3], [4, 5, 6], [7, 8, 0]] ∧
      (deref s2.nodes c2).board ∈ s2.visited := by
  refine ⟨by decide, by decide, by decide, ?_⟩
  have e : expandsVisited ascending [[0, 1, 2], [3, 4, 7], [5, 6, 8]]
      [[1, 2, 3], [4, 5, 6], [7, 8, 0]] 75 = true := by
    set_option maxRecDepth 1000000 in decide
  unfold expandsVisited at e
  rcases hi : iter ascending [[1, 2, 3], [4, 5, 6], [7, 8, 0]] 75
      (initial [[0, 1, 2], [3, 4, 7], [5, 6, 8]] [[1, 2, 3], [4, 5, 6], [7, 8, 0]]) with _ | s2
  · rw [hi] at e; simp at e
  · rw [hi] at e
    simp only [] at e
    rcases ht : topOf ascending s2.frontier with _ | c2
    · rw [ht] at e; simp at e
    · rw [ht] at e
      simp only [Bool.and_eq_true, decide_eq_true_eq] at e
      rcases visited_origin 75 _ s2 (initial_inv (by decide)) hi _ e.2 with h | h
      · simp [initial] at h
      · obtain ⟨k1, s1, c1, hk, hi1, ht1, hb1, -⟩ := h
        exact ⟨k1, s1, s2, c1, c2, hk, hi1, rfl, ht1, ht, hb1, e.1, e.2⟩

end Puzzle8
